import Mathlib

/-! # QTextImage: the ASCII-image parser

A shallow embedding of `QTextImage::parse` and `QTextImage::isValid`
(`src/qtextimage.cpp`) together with the helpers of the anonymous namespace
(`glyphs`, `next`, `rectPoints`, `Component`).

Conventions of the embedding.

* A `QByteArray` is a `List Char`; an element stands for one byte (a Latin-1
  character).
* `int` is `Int`.  The counters `row`, `column` and `columns` are incremented at
  most once per byte of the text and a `QByteArray` holds fewer than `2^31`
  bytes, so no counter wraps.
* `QMultiHash<char, QPoint>` is the list of its items, most recently inserted
  first; `values(key)` lists the values of a key from the most recently
  inserted to the least recently inserted (the order Qt documents).
* `Q_ASSERT` is compiled out (release build).  Where the code then goes on to an
  operation that is undefined when the asserted condition is false
  (`front()` of an empty list) the embedding returns `none`.
* `QTextImage result;` allocates a `QTextImageData` with `new QTextImageData`:
  the members `rows` and `columns` are not initialised.  What the allocation
  holds there is a parameter of `parse`.
-/

namespace QTextImage

/-- A `QPoint`: two `int` coordinates. -/
structure QPoint where
  x : Int
  y : Int
deriving DecidableEq

/-- The `Component::Type` enumeration. -/
inductive ComponentType where
  | Point
  | Line
  | Polygon
  | Ellipse
deriving DecidableEq

/-- The `Component` structure of the anonymous namespace. -/
structure Component where
  glyph : Char
  type : ComponentType
  points : List QPoint
deriving DecidableEq

/-- The class `QTextImageData`. -/
structure QTextImageData where
  rows : Int
  columns : Int
  components : List Component
deriving DecidableEq

/-- The default constructor `QTextImage::QTextImage() : data(new QTextImageData)`.
The implicit constructor of `QTextImageData` builds an empty `components` vector
and leaves the two `int` members as the allocation left them: `mem.1` for
`rows` and `mem.2` for `columns`. -/
def QTextImageData.fresh (mem : Int × Int) : QTextImageData :=
  { rows := mem.1, columns := mem.2, components := [] }

/-- The 61 bytes of `glyphs()`. -/
def glyphs : List Char :=
  "123456789ABCDEFGHIJKLMNOPQRSTUVWXYZabcdefghijklmnopqrstuvwxyz".toList

/-- The storage `glyphs()` points to: `fromRawData` does not copy, so the storage
is the string literal itself, whose 61 characters are followed by the
terminating NUL of the literal. -/
def glyphsData : List Char := glyphs ++ [Char.ofNat 0]

/-- The operator `glyphs()[i]` with `Q_ASSERT(i < size())` compiled out: the byte at
offset `i` of the storage. -/
def glyphsAt (i : Int) : Char := glyphsData.getD i.toNat (Char.ofNat 0)

/-- The search `QByteArray::indexOf(char)`: the first position of `c`, or `-1`. -/
def indexOf : List Char → Char → Int
  | [], _ => -1
  | a :: rest, c =>
    if a = c then 0
    else
      let r := indexOf rest c
      if r < 0 then -1 else r + 1

/-- The function `next` of the anonymous namespace. -/
def next (c : Char) : Char :=
  let index := indexOf glyphs c
  if index < 0 ∨ index ≥ (glyphs.length : Int) then '0'
  else glyphsAt (index + 1)

/-- The test `QChar(c).isSpace()` for a Latin-1 character `c`: the code points
`0x09`-`0x0d`, `0x20`, `0x85` and `0xa0`. -/
def isSpace (c : Char) : Bool :=
  c.toNat = 0x20 || (0x09 ≤ c.toNat && c.toNat ≤ 0x0d) || c.toNat = 0x85 || c.toNat = 0xa0

/-- A `QMultiHash<char, QPoint>`: its items, most recently inserted first. -/
abbrev QMultiHash := List (Char × QPoint)

/-- The member `QMultiHash::insert`: adds an item, also when the key is present. -/
def QMultiHash.insert (h : QMultiHash) (key : Char) (value : QPoint) : QMultiHash :=
  (key, value) :: h

/-- The member `QMultiHash::values(key)`: the values of `key`, from the most recently
inserted to the least recently inserted. -/
def QMultiHash.values (h : QMultiHash) (key : Char) : List QPoint :=
  (h.filter (fun kv => kv.1 = key)).map (fun kv => kv.2)

/-- The function `rectPoints`: the two corners of the bounding box.  `none` stands
for the call excluded by `Q_ASSERT(points.length() >= 3)`. -/
def rectPoints (points : List QPoint) : Option (List QPoint) :=
  match points with
  | [] => none
  | front :: _ =>
    if points.length ≥ 3 then
      let left := points.foldl (fun acc p => min acc p.x) front.x
      let top := points.foldl (fun acc p => min acc p.y) front.y
      let right := points.foldl (fun acc p => max acc p.x) front.x
      let bottom := points.foldl (fun acc p => max acc p.y) front.y
      some [⟨left, top⟩, ⟨right, bottom⟩]
    else none

/-- The local variables of the scanning loop of `parse`. -/
structure ScanState where
  row : Int
  columns : Int
  column : Int
  points : QMultiHash
deriving DecidableEq

/-- The body of `if (text[i] != '\n')` in the scanning loop: a glyph is inserted in the
hash at the current cell, and the column advances. -/
def cell (c : Char) (s : ScanState) : ScanState :=
  { s with
    points := if indexOf glyphs c ≥ 0 then s.points.insert c ⟨s.column, s.row⟩
              else s.points
    column := s.column + 1 }

/-- The row-completion block of the scanning loop: the first row fixes `columns`, a
later row of another width makes `parse` return (`none`), and the next row
starts. -/
def rowEnd (s : ScanState) : Option ScanState :=
  if s.row = 0 then
    some { s with columns := s.column, column := 0, row := s.row + 1 }
  else if s.column ≠ s.columns then none
  else some { s with column := 0, row := s.row + 1 }

/-- One iteration of the scanning loop of `parse` on the byte `c`; `last` is
`i == end - 1`.  `none` is the early `return result`. -/
def scanStep (c : Char) (last : Bool) (s : ScanState) : Option ScanState :=
  if c ≠ '\n' ∧ isSpace c = true then some s
  else
    let s1 : ScanState := if c ≠ '\n' then cell c s else s
    if c = '\n' ∨ (last = true ∧ s1.column ≠ 0) then rowEnd s1
    else some s1

/-- The scanning loop of `parse` over the bytes still to read. -/
def scanLoop : List Char → ScanState → Option ScanState
  | [], s => some s
  | c :: rest, s =>
    match scanStep c rest.isEmpty s with
    | none => none
    | some s1 => scanLoop rest s1

/-- The scanning loop from `row = 0, columns = 0, column = 0` and an empty hash. -/
def scan (text : List Char) : Option ScanState :=
  scanLoop text { row := 0, columns := 0, column := 0, points := [] }

/-- The local variables of the classification loop of `parse`. -/
structure ClassifyState where
  polygon : Component
  components : List Component
deriving DecidableEq

/-- One iteration of the classification loop of `parse` on `glyph`.  `none`: the
condition of `Q_ASSERT(glyphPoints.size() == 1)` is false, or `rectPoints`
is called outside its assertion. -/
def classifyStep (points : QMultiHash) (st : ClassifyState) (glyph : Char) :
    Option ClassifyState :=
  let glyphPoints := points.values glyph
  if st.polygon.points ≠ [] then
    match glyphPoints with
    | [front] =>
      let polygon := { st.polygon with points := st.polygon.points ++ [front] }
      if (points.values (next glyph)).length ≠ 1 then
        some { polygon := { polygon with points := [] },
               components := st.components ++ [polygon] }
      else some { st with polygon := polygon }
    | _ => none
  else
    match glyphPoints.length with
    | 0 => some st
    | 1 =>
      if (points.values (next glyph)).length = 1 then
        some { st with polygon := ⟨glyph, ComponentType.Polygon, glyphPoints⟩ }
      else
        some { st with
               components := st.components ++ [⟨glyph, ComponentType.Point, glyphPoints⟩] }
    | 2 =>
      some { st with
             components := st.components ++ [⟨glyph, ComponentType.Line, glyphPoints⟩] }
    | _ =>
      match rectPoints glyphPoints with
      | none => none
      | some r =>
        some { st with
               components := st.components ++ [⟨glyph, ComponentType.Ellipse, r⟩] }

/-- The classification loop of `parse` over the glyphs still to visit. -/
def classifyLoop (points : QMultiHash) : List Char → ClassifyState → Option ClassifyState
  | [], st => some st
  | glyph :: rest, st =>
    match classifyStep points st glyph with
    | none => none
    | some st1 => classifyLoop points rest st1

/-- The classification loop over all of `glyphs()`, from the polygon
`{'0', Component::Polygon, {}}` and no component. -/
def classify (points : QMultiHash) : Option (List Component) :=
  (classifyLoop points glyphs
      { polygon := ⟨'0', ComponentType.Polygon, []⟩, components := [] }).map
    (fun st => st.components)

/-- The function `QTextImage::parse(const QByteArray &)`.  `mem` is the content of the
uninitialised members of the freshly allocated `QTextImageData`; the outer
`none` is an assertion whose condition is false. -/
def parse (mem : Int × Int) (text : List Char) : Option QTextImageData :=
  let result := QTextImageData.fresh mem
  match scan text with
  | none => some result
  | some s =>
    match classify s.points with
    | none => none
    | some components =>
      some { result with rows := s.row, columns := s.columns, components := components }

/-- The function `QTextImage::isValid`: `data->rows && data->columns`. -/
def isValid (d : QTextImageData) : Bool :=
  d.rows ≠ 0 && d.columns ≠ 0

/-! ## Notions used to state the properties -/

/-- The occurrences of `glyph` handed to the classification loop: `points.values(glyph)`
once the scanning loop is over (nothing when the scan returns early). -/
def occurrences (text : List Char) (glyph : Char) : List QPoint :=
  match scan text with
  | none => []
  | some s => s.points.values glyph

/-- The number of occupied columns of a row: its characters that are not white space. -/
def occupied (row : List Char) : Nat :=
  (row.filter (fun c => !isSpace c)).length

/-- The state of the scanning loop after the bytes of `row`, none of which ends a
row: each byte that is not white space goes through `cell`. -/
def cells (row : List Char) (s : ScanState) : ScanState :=
  row.foldl (fun s c => if isSpace c = true then s else cell c s) s

/-- The text made of the given rows, each followed by a newline. -/
def unlines (rows : List (List Char)) : List Char :=
  (rows.map (fun r => r ++ ['\n'])).flatten

/-- The cell `p` is met before the cell `q` by a scan that goes row by row from the
top, and from left to right within a row. -/
def scannedBefore (p q : QPoint) : Prop :=
  p.y < q.y ∨ (p.y = q.y ∧ p.x < q.x)

/-- The hash lists the cells from the last scanned to the first scanned, and all of
them are met before the current cell `(column, row)`. -/
def Ordered (s : ScanState) : Prop :=
  s.points.Pairwise (fun kv kv2 => scannedBefore kv2.2 kv.2) ∧
    ∀ kv ∈ s.points, scannedBefore kv.2 ⟨s.column, s.row⟩

/-- Each element of the list is followed by its successor under `next`. -/
def consecutive : List Char → Bool
  | a :: b :: rest => decide (next a = b) && consecutive (b :: rest)
  | _ => true

/-- The tags the classification loop has committed to: those of the emitted
components, then that of the polygon being accumulated, if any. -/
def tagsOf (st : ClassifyState) : List Char :=
  st.components.map (fun c => c.glyph) ++
    (if st.polygon.points = [] then [] else [st.polygon.glyph])

/-- The arity rule the classification loop maintains: one point for a `Point`, two
for a `Line`, two or more for a `Polygon`, two for an `Ellipse`. -/
def Arity (c : Component) : Prop :=
  match c.type with
  | ComponentType.Point => c.points.length = 1
  | ComponentType.Line => c.points.length = 2
  | ComponentType.Polygon => 2 ≤ c.points.length
  | ComponentType.Ellipse => c.points.length = 2

/-- The state in which the classification loop starts: the polygon
`{'0', Component::Polygon, {}}` and no component. -/
def classifyInit : ClassifyState := ⟨⟨'0', ComponentType.Polygon, []⟩, []⟩

/-- The outcomes of one iteration of the classification loop. -/
inductive StepCase (pts : QMultiHash) (st : ClassifyState) (g : Char) :
    Option ClassifyState → Prop where
  | fail (hp : st.polygon.points ≠ []) (hv : (pts.values g).length ≠ 1) :
      StepCase pts st g none
  | emit (a : QPoint) (hp : st.polygon.points ≠ []) (hv : pts.values g = [a])
      (hn : (pts.values (next g)).length ≠ 1) :
      StepCase pts st g
        (some ⟨{ st.polygon with points := [] },
          st.components ++ [{ st.polygon with points := st.polygon.points ++ [a] }]⟩)
  | keep (a : QPoint) (hp : st.polygon.points ≠ []) (hv : pts.values g = [a])
      (hn : (pts.values (next g)).length = 1) :
      StepCase pts st g
        (some ⟨{ st.polygon with points := st.polygon.points ++ [a] }, st.components⟩)
  | zero (hp : st.polygon.points = []) (hv : pts.values g = []) :
      StepCase pts st g (some st)
  | start (a : QPoint) (hp : st.polygon.points = []) (hv : pts.values g = [a])
      (hn : (pts.values (next g)).length = 1) :
      StepCase pts st g (some ⟨⟨g, ComponentType.Polygon, [a]⟩, st.components⟩)
  | point (a : QPoint) (hp : st.polygon.points = []) (hv : pts.values g = [a])
      (hn : (pts.values (next g)).length ≠ 1) :
      StepCase pts st g
        (some ⟨st.polygon, st.components ++ [⟨g, ComponentType.Point, [a]⟩]⟩)
  | line (a b : QPoint) (hp : st.polygon.points = []) (hv : pts.values g = [a, b]) :
      StepCase pts st g
        (some ⟨st.polygon, st.components ++ [⟨g, ComponentType.Line, [a, b]⟩]⟩)
  | ellipse (r : List QPoint) (hp : st.polygon.points = [])
      (hv : 3 ≤ (pts.values g).length) (hr : rectPoints (pts.values g) = some r) :
      StepCase pts st g
        (some ⟨st.polygon, st.components ++ [⟨g, ComponentType.Ellipse, r⟩]⟩)

/-- The offset at which `next` reads `glyphs()`: `index + 1` when neither test of the
guard `index < 0 || index >= glyphs().length()` holds, no read otherwise. -/
def nextOffset (c : Char) : Option Int :=
  let index := indexOf glyphs c
  if index < 0 ∨ index ≥ (glyphs.length : Int) then none
  else some (index + 1)

/-- A blank cell: a byte that is neither a newline, nor white space, nor a glyph. -/
def blank (c : Char) : Prop :=
  c ≠ '\n' ∧ isSpace c = false ∧ c ∉ glyphs

/-- The text without its white space other than newlines. -/
def strip (text : List Char) : List Char :=
  text.filter (fun c => decide (c = '\n') || !isSpace c)

/-- The text is empty, or its last byte is a newline or is not white space. -/
def EndsRow (text : List Char) : Prop :=
  text = [] ∨ ∃ c ∈ text.getLast?, c = '\n' ∨ isSpace c = false

/-- The cells of the hash lie in the rows the scan has completed, within `columns`,
or in the current row before the current column. -/
def InGrid (s : ScanState) : Prop :=
  0 ≤ s.row ∧ 0 ≤ s.column ∧
    ∀ kv ∈ s.points, 0 ≤ kv.2.x ∧ 0 ≤ kv.2.y ∧
      ((kv.2.y < s.row ∧ kv.2.x < s.columns) ∨ (kv.2.y = s.row ∧ kv.2.x < s.column))

/-- The points of the components that are a `Point` or a `Polygon`, in order. -/
def vertices (comps : List Component) : List QPoint :=
  (comps.filter (fun c => decide (c.type = ComponentType.Point ∨
    c.type = ComponentType.Polygon))).flatMap (fun c => c.points)

/-- The occurrences of the glyphs of `gs` that have exactly one occurrence, in order. -/
def singles (pts : QMultiHash) (gs : List Char) : List QPoint :=
  gs.flatMap (fun g => if (pts.values g).length = 1 then pts.values g else [])

/-- The points of the components that are not an `Ellipse`, in order. -/
def outline (comps : List Component) : List QPoint :=
  (comps.filter (fun c => decide (c.type ≠ ComponentType.Ellipse))).flatMap
    (fun c => c.points)

/-- The occurrences of the glyphs of `gs` that have one or two occurrences, in order. -/
def direct (pts : QMultiHash) (gs : List Char) : List QPoint :=
  gs.flatMap (fun g => if (pts.values g).length ≤ 2 then pts.values g else [])

/-! ## One iteration of the classification loop -/

theorem step_pending_emit {pts : QMultiHash} {st : ClassifyState} {g : Char} {a : QPoint}
    (hp : st.polygon.points ≠ []) (hv : pts.values g = [a])
    (hn : (pts.values (next g)).length ≠ 1) :
    classifyStep pts st g =
      some ⟨{ st.polygon with points := [] },
            st.components ++ [{ st.polygon with points := st.polygon.points ++ [a] }]⟩ := by
  simp [classifyStep, hp, hv, hn]

theorem step_pending_keep {pts : QMultiHash} {st : ClassifyState} {g : Char} {a : QPoint}
    (hp : st.polygon.points ≠ []) (hv : pts.values g = [a])
    (hn : (pts.values (next g)).length = 1) :
    classifyStep pts st g =
      some ⟨{ st.polygon with points := st.polygon.points ++ [a] }, st.components⟩ := by
  simp [classifyStep, hp, hv, hn]

theorem step_pending_fail {pts : QMultiHash} {st : ClassifyState} {g : Char}
    (hp : st.polygon.points ≠ []) (hv : (pts.values g).length ≠ 1) :
    classifyStep pts st g = none := by
  unfold classifyStep
  simp only [hp, ne_eq, not_false_eq_true, if_true]
  split
  · rename_i front h; simp [h] at hv
  · rfl

theorem step_idle_zero {pts : QMultiHash} {st : ClassifyState} {g : Char}
    (hp : st.polygon.points = []) (hv : pts.values g = []) :
    classifyStep pts st g = some st := by
  simp [classifyStep, hp, hv]

theorem step_idle_start {pts : QMultiHash} {st : ClassifyState} {g : Char} {a : QPoint}
    (hp : st.polygon.points = []) (hv : pts.values g = [a])
    (hn : (pts.values (next g)).length = 1) :
    classifyStep pts st g =
      some ⟨⟨g, ComponentType.Polygon, [a]⟩, st.components⟩ := by
  simp [classifyStep, hp, hv, hn]

theorem step_idle_point {pts : QMultiHash} {st : ClassifyState} {g : Char} {a : QPoint}
    (hp : st.polygon.points = []) (hv : pts.values g = [a])
    (hn : (pts.values (next g)).length ≠ 1) :
    classifyStep pts st g =
      some ⟨st.polygon, st.components ++ [⟨g, ComponentType.Point, [a]⟩]⟩ := by
  simp [classifyStep, hp, hv, hn]

theorem step_idle_line {pts : QMultiHash} {st : ClassifyState} {g : Char} {a b : QPoint}
    (hp : st.polygon.points = []) (hv : pts.values g = [a, b]) :
    classifyStep pts st g =
      some ⟨st.polygon, st.components ++ [⟨g, ComponentType.Line, [a, b]⟩]⟩ := by
  simp [classifyStep, hp, hv]

theorem rectPoints_isSome {l : List QPoint} (h : 3 ≤ l.length) :
    ∃ r, rectPoints l = some r := by
  cases l with
  | nil => simp at h
  | cons a t =>
    simp only [List.length_cons] at h
    simp only [rectPoints, List.length_cons, ge_iff_le]
    rw [if_pos (by omega)]
    exact ⟨_, rfl⟩

theorem step_idle_ellipse {pts : QMultiHash} {st : ClassifyState} {g : Char} {r : List QPoint}
    (hp : st.polygon.points = []) (hv : 3 ≤ (pts.values g).length)
    (hr : rectPoints (pts.values g) = some r) :
    classifyStep pts st g =
      some ⟨st.polygon, st.components ++ [⟨g, ComponentType.Ellipse, r⟩]⟩ := by
  unfold classifyStep
  simp only [hp, ne_eq, not_true_eq_false, if_false]
  split
  · omega
  · omega
  · omega
  · simp [hr]


theorem rectPoints_length {l r : List QPoint} (h : rectPoints l = some r) : r.length = 2 := by
  cases l with
  | nil => simp [rectPoints] at h
  | cons a t =>
    simp only [rectPoints] at h
    split at h
    · cases h; rfl
    · cases h

theorem length_eq_one_cases {α : Type} (l : List α) :
    (∃ a, l = [a]) ∨ l.length ≠ 1 := by
  match l with
  | [] => right; simp
  | [a] => left; exact ⟨a, rfl⟩
  | _ :: _ :: _ => right; simp

theorem step_cases (pts : QMultiHash) (st : ClassifyState) (g : Char) :
    StepCase pts st g (classifyStep pts st g) := by
  by_cases hp : st.polygon.points = []
  · match hv : pts.values g with
    | [] => rw [step_idle_zero hp hv]; exact StepCase.zero hp hv
    | [a] =>
      by_cases hn : (pts.values (next g)).length = 1
      · rw [step_idle_start hp hv hn]; exact StepCase.start a hp hv hn
      · rw [step_idle_point hp hv hn]; exact StepCase.point a hp hv hn
    | [a, b] => rw [step_idle_line hp hv]; exact StepCase.line a b hp hv
    | a :: b :: c :: t =>
      have h3 : 3 ≤ (pts.values g).length := by rw [hv]; simp
      obtain ⟨r, hr⟩ := rectPoints_isSome h3
      rw [step_idle_ellipse hp h3 hr]; exact StepCase.ellipse r hp h3 hr
  · rcases length_eq_one_cases (pts.values g) with ⟨a, hv⟩ | hv
    · by_cases hn : (pts.values (next g)).length = 1
      · rw [step_pending_keep hp hv hn]; exact StepCase.keep a hp hv hn
      · rw [step_pending_emit hp hv hn]; exact StepCase.emit a hp hv hn
    · rw [step_pending_fail hp hv]; exact StepCase.fail hp hv

/-- An iteration succeeds when the glyph met while a polygon is accumulated has
one occurrence. -/
theorem step_total (pts : QMultiHash) (st : ClassifyState) (g : Char)
    (h : st.polygon.points ≠ [] → (pts.values g).length = 1) :
    ∃ st1, classifyStep pts st g = some st1 := by
  have hc := step_cases pts st g
  generalize classifyStep pts st g = o at hc
  cases hc with
  | fail hp hv => exact absurd (h hp) hv
  | _ => exact ⟨_, rfl⟩

/-- After an iteration a polygon is being accumulated exactly when the glyph and
its successor have one occurrence each. -/
theorem step_pending_iff {pts : QMultiHash} {st st1 : ClassifyState} {g : Char}
    (h : classifyStep pts st g = some st1) :
    st1.polygon.points ≠ [] ↔
      (pts.values g).length = 1 ∧ (pts.values (next g)).length = 1 := by
  have hc := step_cases pts st g
  rw [h] at hc
  generalize hst : some st1 = o at hc
  cases hc with
  | fail hp hv => cases hst
  | emit a hp hv hn => cases hst; simp [hn]
  | keep a hp hv hn => cases hst; simp [hv, hn]
  | zero hp hv => cases hst; simp [hp, hv]
  | start a hp hv hn => cases hst; simp [hv, hn]
  | point a hp hv hn => cases hst; simp [hp, hn]
  | line a b hp hv => cases hst; simp [hp, hv]
  | ellipse r hp hv hr => cases hst; simp [hp]; omega

/-- An iteration only appends to the component list. -/
theorem step_grow {pts : QMultiHash} {st st1 : ClassifyState} {g : Char}
    (h : classifyStep pts st g = some st1) :
    ∃ new, st1.components = st.components ++ new := by
  have hc := step_cases pts st g
  rw [h] at hc
  generalize hst : some st1 = o at hc
  cases hc <;> cases hst <;> first | exact ⟨_, rfl⟩ | exact ⟨[], by simp⟩

/-- An iteration commits to at most one new tag, the glyph it visits. -/
theorem step_tags {pts : QMultiHash} {st st1 : ClassifyState} {g : Char}
    (h : classifyStep pts st g = some st1) :
    tagsOf st1 = tagsOf st ∨ tagsOf st1 = tagsOf st ++ [g] := by
  have hc := step_cases pts st g
  rw [h] at hc
  generalize hst : some st1 = o at hc
  cases hc with
  | fail hp hv => cases hst
  | emit a hp hv hn => cases hst; left; simp [tagsOf, hp]
  | keep a hp hv hn => cases hst; left; simp [tagsOf, hp]
  | zero hp hv => cases hst; left; rfl
  | start a hp hv hn => cases hst; right; simp [tagsOf, hp]
  | point a hp hv hn => cases hst; right; simp [tagsOf, hp]
  | line a b hp hv => cases hst; right; simp [tagsOf, hp]
  | ellipse r hp hv hr => cases hst; right; simp [tagsOf, hp]

/-- An iteration keeps the arity rule: the emitted components obey it and a
polygon being accumulated is tagged `Polygon`. -/
theorem step_arity {pts : QMultiHash} {st st1 : ClassifyState} {g : Char}
    (h : classifyStep pts st g = some st1)
    (hc : ∀ c ∈ st.components, Arity c)
    (hp : st.polygon.type = ComponentType.Polygon) :
    (∀ c ∈ st1.components, Arity c) ∧ st1.polygon.type = ComponentType.Polygon := by
  have hs := step_cases pts st g
  rw [h] at hs
  generalize hst : some st1 = o at hs
  cases hs with
  | fail hp hv => cases hst
  | emit a hq hv hn =>
    cases hst
    refine ⟨?_, hp⟩
    intro c hcm
    rcases List.mem_append.1 hcm with hcm | hcm
    · exact hc c hcm
    · simp only [List.mem_singleton] at hcm
      subst hcm
      have : 1 ≤ st.polygon.points.length := by
        cases hpp : st.polygon.points with
        | nil => exact absurd hpp hq
        | cons _ _ => simp
      simp only [Arity, hp, List.length_append, List.length_singleton]
      omega
  | keep a hq hv hn => cases hst; exact ⟨hc, hp⟩
  | zero hq hv => cases hst; exact ⟨hc, hp⟩
  | start a hq hv hn => cases hst; exact ⟨hc, rfl⟩
  | point a hq hv hn =>
    cases hst
    refine ⟨?_, hp⟩
    intro c hcm
    rcases List.mem_append.1 hcm with hcm | hcm
    · exact hc c hcm
    · simp only [List.mem_singleton] at hcm
      subst hcm; simp [Arity]
  | line a b hq hv =>
    cases hst
    refine ⟨?_, hp⟩
    intro c hcm
    rcases List.mem_append.1 hcm with hcm | hcm
    · exact hc c hcm
    · simp only [List.mem_singleton] at hcm
      subst hcm; simp [Arity]
  | ellipse r hq hv hr =>
    cases hst
    refine ⟨?_, hp⟩
    intro c hcm
    rcases List.mem_append.1 hcm with hcm | hcm
    · exact hc c hcm
    · simp only [List.mem_singleton] at hcm
      subst hcm; simp [Arity, rectPoints_length hr]

/-! ## The classification loop -/

theorem classifyLoop_cons (pts : QMultiHash) (g : Char) (rest : List Char)
    (st : ClassifyState) :
    classifyLoop pts (g :: rest) st =
      (classifyStep pts st g).bind (classifyLoop pts rest) := by
  simp only [classifyLoop]
  cases classifyStep pts st g <;> rfl

theorem classifyLoop_append (pts : QMultiHash) (a b : List Char) (st : ClassifyState) :
    classifyLoop pts (a ++ b) st = (classifyLoop pts a st).bind (classifyLoop pts b) := by
  induction a generalizing st with
  | nil => rfl
  | cons g rest ih =>
    rw [List.cons_append, classifyLoop_cons, classifyLoop_cons]
    cases classifyStep pts st g with
    | none => rfl
    | some st1 => exact ih st1

theorem consecutive_cons {a b : Char} {r : List Char}
    (h : consecutive (a :: b :: r) = true) :
    next a = b ∧ consecutive (b :: r) = true := by
  simpa [consecutive] using h

theorem consecutive_tail {a : Char} {rest : List Char}
    (h : consecutive (a :: rest) = true) : consecutive rest = true := by
  cases rest with
  | nil => rfl
  | cons b t => exact (consecutive_cons h).2

theorem consecutive_right {a b : List Char} (h : consecutive (a ++ b) = true) :
    consecutive b = true := by
  induction a with
  | nil => exact h
  | cons x t ih => exact ih (consecutive_tail h)

theorem consecutive_left {a b : List Char} (h : consecutive (a ++ b) = true) :
    consecutive a = true := by
  induction a with
  | nil => rfl
  | cons x t ih =>
    cases t with
    | nil => rfl
    | cons y t2 =>
      have h2 := consecutive_cons (a := x) (b := y) (r := t2 ++ b) h
      simp only [consecutive, Bool.and_eq_true, decide_eq_true_eq]
      exact ⟨h2.1, ih h2.2⟩

theorem consecutive_next {pre post : List Char} {g h : Char}
    (hc : consecutive (pre ++ g :: h :: post) = true) : next g = h :=
  (consecutive_cons (consecutive_right hc)).1

/-- The loop runs to its end when, a polygon being accumulated, the first glyph to
visit has one occurrence. -/
theorem loop_total (pts : QMultiHash) {gs : List Char} (hc : consecutive gs = true)
    (st : ClassifyState)
    (h : st.polygon.points ≠ [] → ∀ g ∈ gs.head?, (pts.values g).length = 1) :
    ∃ st1, classifyLoop pts gs st = some st1 := by
  induction gs generalizing st with
  | nil => exact ⟨st, rfl⟩
  | cons g rest ih =>
    obtain ⟨st1, h1⟩ := step_total pts st g
      (fun hp => h hp g (by simp))
    rw [classifyLoop_cons, h1]
    apply ih (consecutive_tail hc)
    intro hp1 g2 hg2
    cases rest with
    | nil => simp at hg2
    | cons b t =>
      simp only [List.head?_cons, Option.mem_def, Option.some.injEq] at hg2
      subst hg2
      have := (step_pending_iff h1).1 hp1
      rw [(consecutive_cons hc).1] at this
      exact this.2

theorem loop_grow {pts : QMultiHash} {gs : List Char} {st st1 : ClassifyState}
    (h : classifyLoop pts gs st = some st1) :
    ∃ new, st1.components = st.components ++ new := by
  induction gs generalizing st with
  | nil => cases h; exact ⟨[], by simp⟩
  | cons g rest ih =>
    rw [classifyLoop_cons] at h
    cases h1 : classifyStep pts st g with
    | none => rw [h1] at h; cases h
    | some st2 =>
      rw [h1] at h
      obtain ⟨n1, e1⟩ := step_grow h1
      obtain ⟨n2, e2⟩ := ih h
      exact ⟨n1 ++ n2, by rw [e2, e1, List.append_assoc]⟩

/-- The tags the loop commits to while visiting `gs` form a sublist of `gs`. -/
theorem loop_tags {pts : QMultiHash} {gs : List Char} {st st1 : ClassifyState}
    (h : classifyLoop pts gs st = some st1) :
    ∃ t, List.Sublist t gs ∧ tagsOf st1 = tagsOf st ++ t := by
  induction gs generalizing st with
  | nil => cases h; exact ⟨[], List.Sublist.refl _, by simp⟩
  | cons g rest ih =>
    rw [classifyLoop_cons] at h
    cases h1 : classifyStep pts st g with
    | none => rw [h1] at h; cases h
    | some st2 =>
      rw [h1] at h
      obtain ⟨t, ht, e⟩ := ih h
      rcases step_tags h1 with e1 | e1
      · exact ⟨t, List.Sublist.cons g ht, by rw [e, e1]⟩
      · exact ⟨g :: t, List.Sublist.cons₂ g ht, by rw [e, e1]; simp⟩

theorem loop_arity {pts : QMultiHash} {gs : List Char} {st st1 : ClassifyState}
    (h : classifyLoop pts gs st = some st1)
    (hc : ∀ c ∈ st.components, Arity c)
    (hp : st.polygon.type = ComponentType.Polygon) :
    (∀ c ∈ st1.components, Arity c) ∧ st1.polygon.type = ComponentType.Polygon := by
  induction gs generalizing st with
  | nil => cases h; exact ⟨hc, hp⟩
  | cons g rest ih =>
    rw [classifyLoop_cons] at h
    cases h1 : classifyStep pts st g with
    | none => rw [h1] at h; cases h
    | some st2 =>
      rw [h1] at h
      obtain ⟨a, b⟩ := step_arity h1 hc hp
      exact ih h a b

/-- Once the loop has visited `g`, a polygon is being accumulated exactly when `g`
and its successor have one occurrence each. -/
theorem loop_end {pts : QMultiHash} {gs : List Char} {g : Char} {st st1 : ClassifyState}
    (h : classifyLoop pts (gs ++ [g]) st = some st1) :
    st1.polygon.points ≠ [] ↔
      (pts.values g).length = 1 ∧ (pts.values (next g)).length = 1 := by
  rw [classifyLoop_append] at h
  cases h1 : classifyLoop pts gs st with
  | none => rw [h1] at h; cases h
  | some st2 =>
    rw [h1] at h
    simp only [Option.some_bind, classifyLoop_cons] at h
    cases h2 : classifyStep pts st2 g with
    | none => rw [h2] at h; cases h
    | some st3 =>
      rw [h2] at h
      simp only [Option.some_bind, classifyLoop] at h
      cases h
      exact step_pending_iff h2

/-- A polygon being accumulated absorbs a run of glyphs with one occurrence each
and is emitted at the end of the run. -/
theorem loop_run {pts : QMultiHash} (occ : Char → QPoint) (run : List Char) (g : Char)
    (st : ClassifyState)
    (hp : st.polygon.points ≠ [])
    (hc : consecutive (run ++ [g]) = true)
    (hocc : ∀ x ∈ run ++ [g], pts.values x = [occ x])
    (hend : (pts.values (next g)).length ≠ 1) :
    classifyLoop pts (run ++ [g]) st =
      some ⟨{ st.polygon with points := [] },
        st.components ++
          [{ st.polygon with points := st.polygon.points ++ (run ++ [g]).map occ }]⟩ := by
  induction run generalizing st with
  | nil =>
    simp only [List.nil_append, classifyLoop_cons]
    rw [step_pending_emit hp (hocc g (by simp)) hend]
    rfl
  | cons x rest ih =>
    have hx : pts.values x = [occ x] := hocc x (by simp)
    have hnx : (pts.values (next x)).length = 1 := by
      cases rest with
      | nil =>
        have := (consecutive_cons (a := x) (b := g) (r := []) hc).1
        rw [this, hocc g (by simp)]; rfl
      | cons y t =>
        have := (consecutive_cons (a := x) (b := y) (r := t ++ [g]) hc).1
        rw [this, hocc y (by simp)]; rfl
    rw [List.cons_append, classifyLoop_cons, step_pending_keep hp hx hnx]
    simp only [Option.some_bind]
    rw [ih _ (by simp) (consecutive_tail hc) (fun y hy => hocc y (by simp [hy]))]
    simp

/-! ## The alphabet -/

set_option maxRecDepth 100000 in
theorem glyphs_consecutive : consecutive glyphs = true := by decide

set_option maxRecDepth 100000 in
theorem glyphs_nodup : glyphs.Nodup := by decide

set_option maxRecDepth 100000 in
theorem glyphs_not_space : ∀ c ∈ glyphs, c ≠ '\n' ∧ isSpace c = false := by decide

set_option maxRecDepth 100000 in
theorem nul_not_glyph : Char.ofNat 0 ∉ glyphs := by decide

set_option maxRecDepth 100000 in
theorem next_z : next 'z' = Char.ofNat 0 := by decide

set_option maxRecDepth 100000 in
theorem glyphs_last {pre : List Char} {g : Char} (h : glyphs = pre ++ [g]) : g = 'z' := by
  have h1 : glyphs.getLast? = some g := by rw [h]; simp
  have h2 : glyphs.getLast? = some 'z' := by decide
  rw [h2] at h1
  exact (Option.some.inj h1).symm

theorem indexOf_nonneg_iff (l : List Char) (c : Char) : 0 ≤ indexOf l c ↔ c ∈ l := by
  induction l with
  | nil => simp [indexOf]
  | cons a rest ih =>
    simp only [indexOf, List.mem_cons]
    by_cases hac : a = c
    · simp [hac]
    · simp only [hac, if_false]
      have hca : ¬ c = a := fun h => hac h.symm
      by_cases hr : indexOf rest c < 0
      · simp only [hr, if_true]
        constructor
        · intro h; omega
        · intro h
          rcases h with h | h
          · exact absurd h hca
          · have := ih.2 h; omega
      · simp only [hr, if_false]
        constructor
        · intro _; right; exact ih.1 (by omega)
        · intro _; omega

/-! ## The scanning loop -/

theorem scanLoop_cons (c : Char) (rest : List Char) (s : ScanState) :
    scanLoop (c :: rest) s = (scanStep c rest.isEmpty s).bind (scanLoop rest) := by
  simp only [scanLoop]
  cases scanStep c rest.isEmpty s <;> rfl

theorem scanStep_newline (last : Bool) (s : ScanState) :
    scanStep '\n' last s = rowEnd s := by
  simp [scanStep]

theorem scanStep_space {c : Char} (hn : c ≠ '\n') (hs : isSpace c = true) (last : Bool)
    (s : ScanState) : scanStep c last s = some s := by
  simp [scanStep, hn, hs]

theorem scanStep_cell {c : Char} (hn : c ≠ '\n') (hs : isSpace c = false) (last : Bool)
    (s : ScanState) :
    scanStep c last s =
      if last = true ∧ (cell c s).column ≠ 0 then rowEnd (cell c s) else some (cell c s) := by
  simp [scanStep, hn, hs]

theorem rowEnd_points {s s1 : ScanState} (h : rowEnd s = some s1) : s1.points = s.points := by
  unfold rowEnd at h
  split at h
  · cases h; rfl
  · split at h
    · cases h
    · cases h; rfl

theorem cell_points (c : Char) (s : ScanState) :
    (cell c s).points = if c ∈ glyphs then (c, ⟨s.column, s.row⟩) :: s.points else s.points := by
  by_cases hg : c ∈ glyphs
  · have hi : indexOf glyphs c ≥ 0 := (indexOf_nonneg_iff _ _).2 hg
    simp [cell, hi, hg, QMultiHash.insert]
  · have hi : ¬ indexOf glyphs c ≥ 0 := fun hi => hg ((indexOf_nonneg_iff _ _).1 hi)
    simp [cell, hi, hg]

/-- What an iteration of the scanning loop does to the hash: a glyph is inserted at
the current cell, any other byte leaves the hash alone. -/
theorem scanStep_points {c : Char} {last : Bool} {s s1 : ScanState}
    (h : scanStep c last s = some s1) :
    s1.points = if c ∈ glyphs then (c, ⟨s.column, s.row⟩) :: s.points else s.points := by
  by_cases hn : c = '\n'
  · subst hn
    rw [scanStep_newline] at h
    rw [rowEnd_points h]
    have : '\n' ∉ glyphs := by decide
    simp [this]
  · by_cases hs : isSpace c = true
    · rw [scanStep_space hn hs] at h
      cases h
      have : c ∉ glyphs := fun hg => by
        have := (glyphs_not_space c hg).2
        rw [hs] at this; cases this
      simp [this]
    · have hs2 : isSpace c = false := by simpa using hs
      rw [scanStep_cell hn hs2] at h
      split at h
      · rw [rowEnd_points h, cell_points]
      · cases h; rw [cell_points]

theorem values_cons (k : Char) (v : QPoint) (h : QMultiHash) (g : Char) :
    QMultiHash.values ((k, v) :: h) g =
      if k = g then v :: QMultiHash.values h g else QMultiHash.values h g := by
  simp only [QMultiHash.values, List.filter_cons]
  by_cases hk : k = g <;> simp [hk]

/-- The occurrence list of a glyph grows by one entry for each of its occurrences
in the text; no other key enters the hash. -/
theorem scanLoop_count {text : List Char} {s s1 : ScanState}
    (h : scanLoop text s = some s1) (g : Char) :
    (s1.points.values g).length =
      (s.points.values g).length + if g ∈ glyphs then text.count g else 0 := by
  induction text generalizing s with
  | nil => cases h; simp
  | cons c rest ih =>
    rw [scanLoop_cons] at h
    cases h1 : scanStep c rest.isEmpty s with
    | none => rw [h1] at h; cases h
    | some s2 =>
      rw [h1] at h
      rw [ih h, scanStep_points h1]
      by_cases hc : c ∈ glyphs
      · simp only [hc, if_true, values_cons]
        by_cases hcg : c = g
        · subst hcg; simp [hc]; omega
        · have : (c == g) = false := by simpa using hcg
          simp [hcg, List.count_cons, this]
      · simp only [hc, if_false]
        by_cases hg : g ∈ glyphs
        · have hcg : ¬ c = g := fun e => hc (e ▸ hg)
          have : (c == g) = false := by simpa using hcg
          simp [hg, List.count_cons, this]
        · simp [hg]

theorem scan_count {text : List Char} {s : ScanState} (h : scan text = some s) (g : Char) :
    (s.points.values g).length = if g ∈ glyphs then text.count g else 0 := by
  have := scanLoop_count h g
  simpa [QMultiHash.values] using this

theorem occurrences_length {text : List Char} {s : ScanState} (h : scan text = some s)
    {g : Char} (hg : g ∈ glyphs) : (occurrences text g).length = text.count g := by
  simp only [occurrences, h]
  rw [scan_count h g, if_pos hg]

/-! ## The classification of a whole alphabet -/

theorem snoc_cases {α : Type} (l : List α) : l = [] ∨ ∃ t b, l = t ++ [b] := by
  rcases List.eq_nil_or_concat l with h | ⟨t, b, h⟩
  · exact Or.inl h
  · exact Or.inr ⟨t, b, by rw [h, List.concat_eq_append]⟩

theorem classify_eq (pts : QMultiHash) :
    classify pts = (classifyLoop pts glyphs classifyInit).map (fun st => st.components) := rfl

/-- The classification loop never meets a false assertion. -/
theorem classify_total (pts : QMultiHash) : ∃ comps, classify pts = some comps := by
  obtain ⟨st, h⟩ := loop_total pts glyphs_consecutive classifyInit
    (fun hp => absurd rfl hp)
  exact ⟨st.components, by rw [classify_eq, h]; rfl⟩

/-- The loop reaches every prefix of the alphabet. -/
theorem loop_before (pts : QMultiHash) {pre post : List Char} (hg : glyphs = pre ++ post) :
    ∃ st1, classifyLoop pts pre classifyInit = some st1 ∧
      ∀ c ∈ st1.components, c.glyph ∈ pre := by
  have hc : consecutive pre = true := consecutive_left (hg ▸ glyphs_consecutive)
  obtain ⟨st1, h1⟩ := loop_total pts hc classifyInit (fun hp => absurd rfl hp)
  refine ⟨st1, h1, ?_⟩
  obtain ⟨t, ht, e⟩ := loop_tags h1
  intro c hcm
  have : c.glyph ∈ tagsOf st1 := by
    simp only [tagsOf, List.mem_append, List.mem_map]
    exact Or.inl ⟨c, hcm, rfl⟩
  rw [e] at this
  simp only [tagsOf, classifyInit, List.map_nil, if_true, List.append_nil,
    List.nil_append] at this
  exact ht.subset this

/-- No polygon is being accumulated when the loop reaches a glyph that has not one
occurrence, or whose predecessor has not one occurrence. -/
theorem idle_before {pts : QMultiHash} {pre post : List Char} {g : Char}
    {st1 : ClassifyState}
    (hg : glyphs = pre ++ g :: post)
    (h1 : classifyLoop pts pre classifyInit = some st1)
    (hns : (pts.values g).length ≠ 1 ∨
      ∀ h ∈ pre.getLast?, (pts.values h).length ≠ 1) :
    st1.polygon.points = [] := by
  rcases snoc_cases pre with hpre | ⟨t, b, hpre⟩
  · subst hpre; cases h1; rfl
  · subst hpre
    by_contra hp
    have hb := (loop_end h1).1 hp
    have hnext : next b = g := by
      have hc := glyphs_consecutive
      rw [hg, List.append_assoc] at hc
      exact consecutive_next hc
    rw [hnext] at hb
    rcases hns with hns | hns
    · exact hns hb.2
    · exact hns b (by simp) hb.1

/-- The components of a block of glyphs that the loop enters and leaves with no
polygon being accumulated stand between components tagged before the block and
components tagged after it. -/
theorem classify_block {pts : QMultiHash} {pre block post : List Char}
    {st1 st2 : ClassifyState} {mid : List Component}
    (hg : glyphs = pre ++ block ++ post)
    (h1 : classifyLoop pts pre classifyInit = some st1)
    (hb : classifyLoop pts block st1 = some st2)
    (hmid : st2.components = st1.components ++ mid)
    (hidle : st2.polygon.points = []) :
    ∃ c1 c3, classify pts = some (c1 ++ mid ++ c3) ∧
      (∀ c ∈ c1, c.glyph ∈ pre) ∧ (∀ c ∈ c3, c.glyph ∈ post) := by
  have hg1 : glyphs = pre ++ (block ++ post) := by rw [hg, List.append_assoc]
  obtain ⟨st1b, h1b, htag1⟩ := loop_before pts hg1
  rw [h1] at h1b
  cases h1b
  have hcp : consecutive post = true := consecutive_right (hg ▸ glyphs_consecutive)
  obtain ⟨stF, hF⟩ := loop_total pts hcp st2 (fun hp => absurd hidle hp)
  obtain ⟨c3, hc3⟩ := loop_grow hF
  obtain ⟨t, ht, e⟩ := loop_tags hF
  refine ⟨st1.components, c3, ?_, htag1, ?_⟩
  · rw [classify_eq, hg, classifyLoop_append, classifyLoop_append, h1]
    simp only [Option.some_bind, hb, hF, Option.map_some', hc3, hmid]
  · intro c hcm
    have hmem : c.glyph ∈ tagsOf st2 ++ t := by
      rw [← e]
      simp only [tagsOf, hc3, List.map_append, List.mem_append, List.mem_map]
      exact Or.inl (Or.inr ⟨c, hcm, rfl⟩)
    have h2 : tagsOf stF = st2.components.map (fun c => c.glyph) ++ t := by
      rw [e]; simp [tagsOf, hidle]
    have h3 : tagsOf stF = st2.components.map (fun c => c.glyph) ++
        (c3.map (fun c => c.glyph) ++ if stF.polygon.points = [] then [] else [stF.polygon.glyph]) := by
      simp [tagsOf, hc3]
    rw [h3] at h2
    have h4 := List.append_cancel_left h2
    have : c.glyph ∈ t := by
      rw [← h4]
      simp only [List.mem_append, List.mem_map]
      exact Or.inl ⟨c, hcm, rfl⟩
    exact ht.subset this

/-- In the list `classify_block` describes, the components tagged in the block are
those the block emits. -/
theorem filter_block {pre block post : List Char} {c1 mid c3 : List Component}
    (hg : glyphs = pre ++ block ++ post)
    (h1 : ∀ c ∈ c1, c.glyph ∈ pre) (h3 : ∀ c ∈ c3, c.glyph ∈ post)
    (hm : ∀ c ∈ mid, c.glyph ∈ block) :
    (c1 ++ mid ++ c3).filter (fun c => decide (c.glyph ∈ block)) = mid := by
  have hnd := glyphs_nodup
  rw [hg] at hnd
  have hd1 : ∀ x, x ∈ pre → x ∉ block := by
    intro x hx hxb
    have := (List.nodup_append.1 (List.nodup_append.1 hnd).1).2.2
    exact this hx hxb
  have hd3 : ∀ x, x ∈ post → x ∉ block := by
    intro x hx hxb
    have := (List.nodup_append.1 hnd).2.2
    exact this (List.mem_append_right _ hxb) hx
  rw [List.filter_append, List.filter_append]
  have e1 : c1.filter (fun c => decide (c.glyph ∈ block)) = [] := by
    rw [List.filter_eq_nil_iff]
    intro c hc; simpa using hd1 _ (h1 c hc)
  have e3 : c3.filter (fun c => decide (c.glyph ∈ block)) = [] := by
    rw [List.filter_eq_nil_iff]
    intro c hc; simpa using hd3 _ (h3 c hc)
  have e2 : mid.filter (fun c => decide (c.glyph ∈ block)) = mid := by
    rw [List.filter_eq_self]
    intro c hc; simpa using hm c hc
  rw [e1, e2, e3]; simp

/-! ## Rows -/

theorem cells_fields (row : List Char) (s : ScanState) :
    (cells row s).row = s.row ∧ (cells row s).columns = s.columns ∧
      (cells row s).column = s.column + (occupied row : Int) := by
  induction row generalizing s with
  | nil => simp [cells, occupied]
  | cons c rest ih =>
    by_cases hs : isSpace c = true
    · have e : cells (c :: rest) s = cells rest s := by simp [cells, hs]
      have o : occupied (c :: rest) = occupied rest := by simp [occupied, hs]
      rw [e, o]; exact ih s
    · have e : cells (c :: rest) s = cells rest (cell c s) := by simp [cells, hs]
      have o : occupied (c :: rest) = occupied rest + 1 := by simp [occupied, hs]
      rw [e, o]
      obtain ⟨a, b, d⟩ := ih (cell c s)
      refine ⟨a, b, ?_⟩
      rw [d]; simp only [cell]; push_cast; omega

/-- The bytes of a row that a newline follows are scanned without completing a row. -/
theorem scanLoop_row {row : List Char} (hrow : '\n' ∉ row) (rest : List Char)
    (s : ScanState) :
    scanLoop (row ++ '\n' :: rest) s = (rowEnd (cells row s)).bind (scanLoop rest) := by
  induction row generalizing s with
  | nil =>
    rw [List.nil_append, scanLoop_cons, scanStep_newline]; rfl
  | cons c t ih =>
    have hn : c ≠ '\n' := fun e => hrow (by simp [e])
    have ht : '\n' ∉ t := fun e => hrow (by simp [e])
    have hl : (t ++ '\n' :: rest).isEmpty = false := by cases t <;> rfl
    rw [List.cons_append, scanLoop_cons, hl]
    by_cases hs : isSpace c = true
    · rw [scanStep_space hn hs]
      simp only [Option.some_bind]
      rw [ih ht]; simp [cells, hs]
    · have hs2 : isSpace c = false := by simpa using hs
      rw [scanStep_cell hn hs2]
      simp only [Bool.false_eq_true, false_and, if_false, Option.some_bind]
      rw [ih ht]; simp [cells, hs]

theorem unlines_cons (r : List Char) (rows : List (List Char)) :
    unlines (r :: rows) = r ++ '\n' :: unlines rows := by
  simp [unlines]

/-- Rows of one width, each ended by a newline, are all counted. -/
theorem scanLoop_unlines (c : Nat) (rows : List (List Char)) (s : ScanState)
    (hrow : ∀ r ∈ rows, '\n' ∉ r ∧ occupied r = c)
    (h0 : 0 ≤ s.row) (hcol : s.column = 0) (hw : s.row = 0 ∨ s.columns = c) :
    ∃ s1, scanLoop (unlines rows) s = some s1 ∧ s1.row = s.row + rows.length ∧
      s1.column = 0 ∧ (rows ≠ [] → s1.columns = c) := by
  induction rows generalizing s with
  | nil => exact ⟨s, rfl, by simp, hcol, fun h => absurd rfl h⟩
  | cons r rest ih =>
    obtain ⟨hn, ho⟩ := hrow r (by simp)
    obtain ⟨fr, fc, fcol⟩ := cells_fields r s
    rw [unlines_cons, scanLoop_row hn]
    have hend : ∃ s2, rowEnd (cells r s) = some s2 ∧ s2.row = s.row + 1 ∧
        s2.column = 0 ∧ s2.columns = c := by
      unfold rowEnd
      by_cases hz : (cells r s).row = 0
      · rw [if_pos hz]
        exact ⟨_, rfl, by simp [fr], rfl, by simp [fcol, hcol, ho]⟩
      · rw [if_neg hz]
        have hsc : s.columns = c := by
          rcases hw with hw | hw
          · rw [fr] at hz; exact absurd hw hz
          · exact hw
        have : ¬ (cells r s).column ≠ (cells r s).columns := by
          simp [fcol, fc, hcol, ho, hsc]
        rw [if_neg this]
        exact ⟨_, rfl, by simp [fr], rfl, by simp [fc, hsc]⟩
    obtain ⟨s2, e2, r2, c2, w2⟩ := hend
    rw [e2]
    simp only [Option.some_bind]
    obtain ⟨s3, e3, r3, c3, w3⟩ := ih s2 (fun r hr => hrow r (by simp [hr]))
      (by omega) c2 (Or.inr w2)
    refine ⟨s3, e3, ?_, c3, ?_⟩
    · rw [r3, r2]; simp only [List.length_cons]; push_cast; omega
    · intro _
      cases rest with
      | nil => cases e3; exact w2
      | cons a b => exact w3 (by simp)

/-! ## The function `parse` -/

theorem parse_of_scan {text : List Char} {s : ScanState} (mem : Int × Int)
    (h : scan text = some s) :
    ∃ comps, classify s.points = some comps ∧
      parse mem text = some ⟨s.row, s.columns, comps⟩ := by
  obtain ⟨comps, hc⟩ := classify_total s.points
  exact ⟨comps, hc, by simp [parse, h, hc, QTextImageData.fresh]⟩

theorem parse_of_abort {text : List Char} (mem : Int × Int) (h : scan text = none) :
    parse mem text = some (QTextImageData.fresh mem) := by
  simp [parse, h]

/-- The function `parse` returns an image for every text. -/
theorem parse_total (mem : Int × Int) (text : List Char) :
    ∃ img, parse mem text = some img := by
  cases h : scan text with
  | none => exact ⟨_, parse_of_abort mem h⟩
  | some s =>
    obtain ⟨comps, _, hp⟩ := parse_of_scan mem h
    exact ⟨_, hp⟩

/-! ## The claims -/

/-- C1. A text of `r >= 1` rows, each ended by a newline and each with exactly
`c >= 1` characters that are not white space, parses to an image with
`rows = r` and `columns = c`, and `isValid()` is true. -/
theorem parse_uniform_rows (mem : Int × Int) (rows : List (List Char)) (c : Nat)
    (hr : 1 ≤ rows.length) (hc : 1 ≤ c)
    (hrow : ∀ r ∈ rows, '\n' ∉ r ∧ occupied r = c) :
    ∃ img, parse mem (unlines rows) = some img ∧
      img.rows = rows.length ∧ img.columns = c ∧ isValid img = true := by
  obtain ⟨s, hs, hrw, _, hcl⟩ :=
    scanLoop_unlines c rows ⟨0, 0, 0, []⟩ hrow (le_refl _) rfl (Or.inl rfl)
  have hne : rows ≠ [] := by
    intro e; rw [e] at hr; simp at hr
  obtain ⟨comps, _, hp⟩ := parse_of_scan mem hs
  refine ⟨_, hp, by simpa using hrw, hcl hne, ?_⟩
  simp only [isValid, hrw, hcl hne, zero_add, ne_eq, Bool.and_eq_true, decide_eq_true_eq]
  constructor <;> omega

theorem parse_uniform_rows_witness :
    (1 ≤ ["1 1".toList, "1 1".toList].length ∧ 1 ≤ 2 ∧
      ∀ r ∈ ["1 1".toList, "1 1".toList], '\n' ∉ r ∧ occupied r = 2) ∧
    ∃ img, parse (5, -3) (unlines ["1 1".toList, "1 1".toList]) = some img ∧
      img.rows = ["1 1".toList, "1 1".toList].length ∧ img.columns = (2 : Nat) ∧
      isValid img = true :=
  ⟨⟨by decide, by decide, by decide⟩,
    parse_uniform_rows (5, -3) ["1 1".toList, "1 1".toList] 2 (by decide) (by decide)
      (by decide)⟩

/-! ## A row of another width -/

/-- The bytes of a last row that ends with a cell and no newline: the end of the
input completes the row. -/
theorem scanLoop_last_row {row : List Char} (hrow : '\n' ∉ row) {c : Char}
    (hn : c ≠ '\n') (hs : isSpace c = false) (s : ScanState)
    (hcol : (cells row s).column + 1 ≠ 0) :
    scanLoop (row ++ [c]) s = rowEnd (cell c (cells row s)) := by
  induction row generalizing s with
  | nil =>
    have e : cells [] s = s := rfl
    rw [e] at hcol
    have hc2 : (cell c s).column ≠ 0 := by simpa [cell] using hcol
    rw [List.nil_append, scanLoop_cons, scanStep_cell hn hs]
    simp only [List.isEmpty_nil, true_and]
    rw [if_pos hc2, e]
    cases rowEnd (cell c s) <;> rfl
  | cons d t ih =>
    have hd : d ≠ '\n' := fun e => hrow (by simp [e])
    have ht : '\n' ∉ t := fun e => hrow (by simp [e])
    have hl : (t ++ [c]).isEmpty = false := by cases t <;> rfl
    rw [List.cons_append, scanLoop_cons, hl]
    by_cases hsd : isSpace d = true
    · have e : cells (d :: t) s = cells t s := by simp [cells, hsd]
      rw [e] at hcol ⊢
      rw [scanStep_space hd hsd]
      exact ih ht s hcol
    · have hsd2 : isSpace d = false := by simpa using hsd
      have e : cells (d :: t) s = cells t (cell d s) := by simp [cells, hsd]
      rw [e] at hcol ⊢
      rw [scanStep_cell hd hsd2]
      simp only [Bool.false_eq_true, false_and, if_false, Option.some_bind]
      exact ih ht (cell d s) hcol

theorem rowEnd_later {s : ScanState} (h : 1 ≤ s.row) :
    rowEnd s = if s.column ≠ s.columns then none
      else some { s with column := 0, row := s.row + 1 } := by
  have : ¬ s.row = 0 := by omega
  simp [rowEnd, this]

/-- Complete rows after the first either make the scan return early or leave the
width of the first row in `columns`. -/
theorem scanLoop_later_rows (rows : List (List Char)) (rest : List Char) (s : ScanState)
    (hrows : ∀ r ∈ rows, '\n' ∉ r) (hcol : s.column = 0) (hrow : 1 ≤ s.row) :
    scanLoop (unlines rows ++ rest) s = none ∨
      ∃ s1, scanLoop (unlines rows ++ rest) s = scanLoop rest s1 ∧
        s1.column = 0 ∧ 1 ≤ s1.row ∧ s1.columns = s.columns := by
  induction rows generalizing s with
  | nil => exact Or.inr ⟨s, rfl, hcol, hrow, rfl⟩
  | cons r t ih =>
    obtain ⟨fr, fc, _⟩ := cells_fields r s
    rw [unlines_cons, List.append_assoc, List.cons_append, scanLoop_row (hrows r (by simp)),
      rowEnd_later (by omega)]
    by_cases hm : (cells r s).column ≠ (cells r s).columns
    · left; rw [if_pos hm]; rfl
    · rw [if_neg hm]
      simp only [Option.some_bind]
      have hr2 : 1 ≤ (cells r s).row + 1 := by rw [fr]; omega
      rcases ih ⟨(cells r s).row + 1, (cells r s).columns, 0, (cells r s).points⟩
        (fun x hx => hrows x (by simp [hx])) rfl hr2 with h | ⟨s1, h, a, b, c⟩
      · exact Or.inl h
      · exact Or.inr ⟨s1, h, a, b, by rw [c]; exact fc⟩

/-- The scan returns early on every text in which a completed row after the first
has not the width of the first row. -/
theorem scan_mismatch (first bad : List Char) (mid : List (List Char)) (tail : List Char)
    (hf : '\n' ∉ first) (hm : ∀ r ∈ mid, '\n' ∉ r) (hb : '\n' ∉ bad)
    (hne : occupied bad ≠ occupied first)
    (ht : (∃ rest, tail = '\n' :: rest) ∨
      (tail = [] ∧ ∃ c ∈ bad.getLast?, isSpace c = false)) :
    scan (first ++ '\n' :: (unlines mid ++ (bad ++ tail))) = none := by
  unfold scan
  rw [scanLoop_row hf]
  obtain ⟨fr, _, fcol⟩ := cells_fields first ⟨0, 0, 0, []⟩
  have hz : (cells first ⟨0, 0, 0, []⟩).row = 0 := fr
  simp only [rowEnd, hz, if_true, Option.some_bind]
  rcases scanLoop_later_rows mid (bad ++ tail)
    ⟨0 + 1, (cells first ⟨0, 0, 0, []⟩).column, 0, (cells first ⟨0, 0, 0, []⟩).points⟩
    hm rfl (by show (1 : Int) ≤ 0 + 1; omega) with h | ⟨s1, h, c1, r1, w1⟩
  · exact h
  rw [h]
  simp only [fcol, zero_add] at w1
  obtain ⟨gr, gc, gcol⟩ := cells_fields bad s1
  have hdiff : (cells bad s1).column ≠ (cells bad s1).columns := by
    rw [gcol, gc, c1, w1]
    intro e
    apply hne
    have : (occupied bad : Int) = (occupied first : Int) := by omega
    exact_mod_cast this
  rcases ht with ⟨rest, e⟩ | ⟨e, c, hc, hsp⟩
  · subst e
    rw [scanLoop_row hb, rowEnd_later (by omega), if_pos hdiff]
    rfl
  · subst e
    rcases snoc_cases bad with eb | ⟨b, d, eb⟩
    · subst eb; simp at hc
    subst eb
    have hcd : c = d := by simpa using hc.symm
    subst hcd
    have hbn : '\n' ∉ b := fun hx => hb (by simp [hx])
    have hcn : c ≠ '\n' := fun hx => hb (by simp [hx])
    obtain ⟨br, bc, bcol⟩ := cells_fields b s1
    rw [List.append_nil, scanLoop_last_row hbn hcn hsp s1 (by rw [bcol, c1]; omega)]
    have hocc : occupied (b ++ [c]) = occupied b + 1 := by simp [occupied, hsp]
    have hcell : (cell c (cells b s1)).column ≠ (cell c (cells b s1)).columns := by
      simp only [cell, bcol, bc, c1, w1]
      intro e
      apply hne
      rw [hocc]
      have : ((occupied b + 1 : Nat) : Int) = (occupied first : Int) := by
        push_cast; omega
      exact_mod_cast this
    have hrow : 1 ≤ (cell c (cells b s1)).row := by simp only [cell, br]; exact r1
    rw [rowEnd_later hrow, if_pos hcell]

/-- C2. On every text in which a completed row after the first (ended by a newline,
or last and ended by the end of the input right after a cell) has not the width
of the first row, `parse` returns the default-constructed image: no component,
and for `rows` and `columns` whatever the allocation held.  So for the rows
`1 1` and `1` the result has `rows = 1`, `columns = 1` and `isValid()` true
when the allocation held 1 and 1. -/
theorem parse_mismatch_default_constructed :
    (∀ (mem : Int × Int) (first bad : List Char) (mid : List (List Char))
      (tail : List Char),
      '\n' ∉ first → (∀ r ∈ mid, '\n' ∉ r) → '\n' ∉ bad →
      occupied bad ≠ occupied first →
      ((∃ rest, tail = '\n' :: rest) ∨
        (tail = [] ∧ ∃ c ∈ bad.getLast?, isSpace c = false)) →
      parse mem (first ++ '\n' :: (unlines mid ++ (bad ++ tail))) =
        some ⟨mem.1, mem.2, []⟩) ∧
    parse (1, 1) "1 1\n1".toList = some ⟨1, 1, []⟩ ∧
    isValid ⟨1, 1, []⟩ = true := by
  refine ⟨?_, ?_, by decide⟩
  · intro mem first bad mid tail hf hm hb hne ht
    exact parse_of_abort mem (scan_mismatch first bad mid tail hf hm hb hne ht)
  · exact parse_of_abort (1, 1) (by decide)

theorem parse_mismatch_default_constructed_witness :
    parse (1, 1) ("1 1".toList ++ '\n' :: (unlines [] ++ ("1".toList ++ []))) =
      some ⟨1, 1, []⟩ :=
  parse_mismatch_default_constructed.1 (1, 1) "1 1".toList "1".toList [] []
    (by decide) (by decide) (by decide) (by decide)
    (Or.inr ⟨rfl, '1', by decide, by decide⟩)

theorem values_of_count_one {text : List Char} {s : ScanState} (h : scan text = some s)
    {g : Char} (hg : g ∈ glyphs) (hc : text.count g = 1) :
    s.points.values g = [(s.points.values g).headD ⟨0, 0⟩] := by
  have := scan_count h g
  rw [if_pos hg, hc] at this
  match hv : s.points.values g with
  | [] => rw [hv] at this; simp at this
  | [a] => rfl
  | _ :: _ :: _ => rw [hv] at this; simp at this

theorem count_ne_one {text : List Char} {s : ScanState} (h : scan text = some s)
    {g : Char} (hc : text.count g ≠ 1) : (s.points.values g).length ≠ 1 := by
  rw [scan_count h g]
  by_cases hg : g ∈ glyphs
  · rw [if_pos hg]; exact hc
  · rw [if_neg hg]; decide

/-- The successor of the last glyph of a block has not one occurrence when the
glyph after the block has not. -/
theorem next_after_block {text : List Char} {s : ScanState} (h : scan text = some s)
    {pre post : List Char} {g : Char} (hg : glyphs = pre ++ g :: post)
    (hpost : ∀ x ∈ post.head?, text.count x ≠ 1) :
    (s.points.values (next g)).length ≠ 1 := by
  cases post with
  | nil =>
    rw [glyphs_last hg, next_z, scan_count h, if_neg nul_not_glyph]; decide
  | cons x t =>
    have hc := glyphs_consecutive
    rw [hg] at hc
    rw [consecutive_next hc]
    exact count_ne_one h (hpost x (by simp))

/-- C3. When the scan does not return early, a maximal run `g :: rest` (two glyphs or
more) of consecutive alphabet symbols with exactly one occurrence each gives
exactly one component tagged in the run: a `Polygon` tagged `g` whose points are
the single occurrences of the glyphs of the run, in alphabet order. -/
theorem polygon_of_run (mem : Int × Int) (text : List Char) (s : ScanState)
    (hs : scan text = some s) (pre rest post : List Char) (g : Char)
    (hg : glyphs = pre ++ (g :: rest) ++ post) (hlen : rest ≠ [])
    (hone : ∀ x ∈ g :: rest, text.count x = 1)
    (hpre : ∀ x ∈ pre.getLast?, text.count x ≠ 1)
    (hpost : ∀ x ∈ post.head?, text.count x ≠ 1) :
    ∃ img c, parse mem text = some img ∧
      img.components.filter (fun c => decide (c.glyph ∈ g :: rest)) = [c] ∧
      c.type = ComponentType.Polygon ∧ c.glyph = g ∧
      c.points.map (fun p => [p]) = (g :: rest).map (occurrences text) ∧
      c.points.length = (g :: rest).length := by
  obtain ⟨comps, hcl, hp⟩ := parse_of_scan mem hs
  have hmem : ∀ x ∈ g :: rest, x ∈ glyphs := by
    intro x hx; rw [hg]; simp only [List.mem_append]; exact Or.inl (Or.inr hx)
  let occ : Char → QPoint := fun x => (s.points.values x).headD ⟨0, 0⟩
  have hocc : ∀ x ∈ g :: rest, s.points.values x = [occ x] :=
    fun x hx => values_of_count_one hs (hmem x hx) (hone x hx)
  rcases snoc_cases rest with e | ⟨t, gl, e⟩
  · exact absurd e hlen
  subst e
  have hg1 : glyphs = pre ++ (g :: ((t ++ [gl]) ++ post)) := by
    rw [hg]; simp
  obtain ⟨st1, h1, _⟩ := loop_before s.points hg1
  have hidle : st1.polygon.points = [] :=
    idle_before hg1 h1 (Or.inr (fun x hx => count_ne_one hs (hpre x hx)))
  have hcons : consecutive (g :: (t ++ [gl])) = true := by
    have hc := glyphs_consecutive
    rw [hg] at hc
    exact consecutive_right (consecutive_left hc)
  have hnext : (s.points.values (next g)).length = 1 := by
    cases t with
    | nil =>
      rw [(consecutive_cons (a := g) (b := gl) (r := []) hcons).1, hocc gl (by simp)]; rfl
    | cons y t2 =>
      rw [(consecutive_cons (a := g) (b := y) (r := t2 ++ [gl]) hcons).1,
        hocc y (by simp)]; rfl
  have hend : (s.points.values (next gl)).length ≠ 1 :=
    next_after_block hs (by rw [hg]; simp : glyphs = (pre ++ g :: t) ++ gl :: post) hpost
  have hblock : classifyLoop s.points (g :: (t ++ [gl])) st1 =
      some ⟨⟨g, ComponentType.Polygon, []⟩,
        st1.components ++ [⟨g, ComponentType.Polygon, (g :: (t ++ [gl])).map occ⟩]⟩ := by
    rw [classifyLoop_cons, step_idle_start hidle (hocc g (by simp)) hnext]
    simp only [Option.some_bind]
    rw [loop_run occ t gl _ (by simp) (consecutive_tail hcons)
      (fun x hx => hocc x (by simp [hx])) hend]
    simp
  obtain ⟨c1, c3, hcomps, ht1, ht3⟩ := classify_block hg h1 hblock rfl rfl
  rw [hcl] at hcomps
  cases hcomps
  refine ⟨_, ⟨g, ComponentType.Polygon, (g :: (t ++ [gl])).map occ⟩, hp, ?_, rfl, rfl, ?_, ?_⟩
  · exact filter_block hg ht1 ht3 (by simp)
  · simp only [List.map_map]
    apply List.map_congr_left
    intro x hx
    simp only [Function.comp, occurrences, hs]
    exact (hocc x hx).symm
  · simp

set_option maxRecDepth 100000 in
theorem polygon_of_run_witness :
    ∃ img c, parse (0, 0) "y z\n".toList = some img ∧
      img.components.filter (fun c => decide (c.glyph ∈ ['y', 'z'])) = [c] ∧
      c.type = ComponentType.Polygon ∧ c.glyph = 'y' ∧
      c.points.map (fun p => [p]) = ['y', 'z'].map (occurrences "y z\n".toList) ∧
      c.points.length = ['y', 'z'].length :=
  polygon_of_run (0, 0) "y z\n".toList ⟨1, 2, 0, [('z', ⟨1, 0⟩), ('y', ⟨0, 0⟩)]⟩
    (by decide) (glyphs.take 59) ['z'] [] 'y' (by decide) (by decide) (by decide)
    (by decide) (by decide)

/-! ## Bounding boxes -/

theorem foldl_min_le (f : QPoint → Int) (l : List QPoint) (a : Int) :
    l.foldl (fun acc p => min acc (f p)) a ≤ a ∧
      ∀ p ∈ l, l.foldl (fun acc p => min acc (f p)) a ≤ f p := by
  induction l generalizing a with
  | nil => simp
  | cons q t ih =>
    simp only [List.foldl_cons, List.mem_cons]
    obtain ⟨h1, h2⟩ := ih (min a (f q))
    refine ⟨le_trans h1 (min_le_left _ _), ?_⟩
    intro p hp
    rcases hp with hp | hp
    · subst hp; exact le_trans h1 (min_le_right _ _)
    · exact h2 p hp

theorem foldl_min_mem (f : QPoint → Int) (l : List QPoint) (a : Int) :
    l.foldl (fun acc p => min acc (f p)) a = a ∨
      ∃ p ∈ l, l.foldl (fun acc p => min acc (f p)) a = f p := by
  induction l generalizing a with
  | nil => simp
  | cons q t ih =>
    simp only [List.foldl_cons, List.mem_cons]
    rcases ih (min a (f q)) with h | ⟨p, hp, h⟩
    · rcases min_choice a (f q) with hm | hm
      · left; rw [h, hm]
      · right; exact ⟨q, Or.inl rfl, by rw [h, hm]⟩
    · right; exact ⟨p, Or.inr hp, h⟩

theorem foldl_max_le (f : QPoint → Int) (l : List QPoint) (a : Int) :
    a ≤ l.foldl (fun acc p => max acc (f p)) a ∧
      ∀ p ∈ l, f p ≤ l.foldl (fun acc p => max acc (f p)) a := by
  induction l generalizing a with
  | nil => simp
  | cons q t ih =>
    simp only [List.foldl_cons, List.mem_cons]
    obtain ⟨h1, h2⟩ := ih (max a (f q))
    refine ⟨le_trans (le_max_left _ _) h1, ?_⟩
    intro p hp
    rcases hp with hp | hp
    · subst hp; exact le_trans (le_max_right _ _) h1
    · exact h2 p hp

theorem foldl_max_mem (f : QPoint → Int) (l : List QPoint) (a : Int) :
    l.foldl (fun acc p => max acc (f p)) a = a ∨
      ∃ p ∈ l, l.foldl (fun acc p => max acc (f p)) a = f p := by
  induction l generalizing a with
  | nil => simp
  | cons q t ih =>
    simp only [List.foldl_cons, List.mem_cons]
    rcases ih (max a (f q)) with h | ⟨p, hp, h⟩
    · rcases max_choice a (f q) with hm | hm
      · left; rw [h, hm]
      · right; exact ⟨q, Or.inl rfl, by rw [h, hm]⟩
    · right; exact ⟨p, Or.inr hp, h⟩

/-- The result of `rectPoints` is the bounding box of the points: it contains them
all and each of its four bounds is the coordinate of one of them. -/
theorem rectPoints_box {l r : List QPoint} (h : rectPoints l = some r) :
    ∃ lo hi, r = [lo, hi] ∧
      (∀ p ∈ l, lo.x ≤ p.x ∧ p.x ≤ hi.x ∧ lo.y ≤ p.y ∧ p.y ≤ hi.y) ∧
      (∃ p ∈ l, p.x = lo.x) ∧ (∃ p ∈ l, p.y = lo.y) ∧
      (∃ p ∈ l, p.x = hi.x) ∧ (∃ p ∈ l, p.y = hi.y) := by
  cases l with
  | nil => simp [rectPoints] at h
  | cons a t =>
    simp only [rectPoints] at h
    split at h
    · cases h
      refine ⟨_, _, rfl, ?_, ?_, ?_, ?_, ?_⟩
      · intro p hp
        exact ⟨(foldl_min_le (fun p => p.x) (a :: t) a.x).2 p hp,
          (foldl_max_le (fun p => p.x) (a :: t) a.x).2 p hp,
          (foldl_min_le (fun p => p.y) (a :: t) a.y).2 p hp,
          (foldl_max_le (fun p => p.y) (a :: t) a.y).2 p hp⟩
      · rcases foldl_min_mem (fun p => p.x) (a :: t) a.x with e | ⟨p, hp, e⟩
        · exact ⟨a, by simp, e.symm⟩
        · exact ⟨p, hp, e.symm⟩
      · rcases foldl_min_mem (fun p => p.y) (a :: t) a.y with e | ⟨p, hp, e⟩
        · exact ⟨a, by simp, e.symm⟩
        · exact ⟨p, hp, e.symm⟩
      · rcases foldl_max_mem (fun p => p.x) (a :: t) a.x with e | ⟨p, hp, e⟩
        · exact ⟨a, by simp, e.symm⟩
        · exact ⟨p, hp, e.symm⟩
      · rcases foldl_max_mem (fun p => p.y) (a :: t) a.y with e | ⟨p, hp, e⟩
        · exact ⟨a, by simp, e.symm⟩
        · exact ⟨p, hp, e.symm⟩
    · cases h

/-- A glyph that the loop reaches with no polygon being accumulated, and for which
it emits the component `x`, is the tag of `x` alone. -/
theorem classify_single {pts : QMultiHash} {pre post : List Char} {g : Char}
    {st1 : ClassifyState} {x : Component}
    (hg : glyphs = pre ++ g :: post)
    (h1 : classifyLoop pts pre classifyInit = some st1)
    (hstep : classifyStep pts st1 g = some ⟨st1.polygon, st1.components ++ [x]⟩)
    (hidle : st1.polygon.points = []) (hx : x.glyph = g) :
    ∃ comps, classify pts = some comps ∧
      comps.filter (fun c => decide (c.glyph = g)) = [x] := by
  have hg2 : glyphs = pre ++ [g] ++ post := by rw [hg]; simp
  have hb : classifyLoop pts [g] st1 = some ⟨st1.polygon, st1.components ++ [x]⟩ := by
    rw [classifyLoop_cons, hstep]; rfl
  obtain ⟨c1, c3, hc, ht1, ht3⟩ := classify_block hg2 h1 hb rfl hidle
  refine ⟨_, hc, ?_⟩
  have hf := filter_block hg2 ht1 ht3 (by simp [hx] : ∀ c ∈ [x], c.glyph ∈ [g])
  have hfun : (fun c : Component => decide (c.glyph = g)) =
      (fun c : Component => decide (c.glyph ∈ [g])) := by
    funext c; simp
  rw [hfun]; exact hf

theorem parse_eval {text : List Char} {s : ScanState} {comps : List Component}
    (mem : Int × Int) (h : scan text = some s) (hc : classify s.points = some comps) :
    parse mem text = some ⟨s.row, s.columns, comps⟩ := by
  simp [parse, h, hc, QTextImageData.fresh]

/-- A glyph with a number of occurrences other than one is reached with no polygon
being accumulated. -/
theorem reach_idle {text : List Char} {s : ScanState} (hs : scan text = some s)
    {g : Char} (hgm : g ∈ glyphs) (hc : text.count g ≠ 1) :
    ∃ pre post st1, glyphs = pre ++ g :: post ∧
      classifyLoop s.points pre classifyInit = some st1 ∧ st1.polygon.points = [] := by
  obtain ⟨pre, post, hg⟩ := List.append_of_mem hgm
  obtain ⟨st1, h1, _⟩ := loop_before s.points hg
  exact ⟨pre, post, st1, hg, h1, idle_before hg h1 (Or.inl (count_ne_one hs hc))⟩

/-- C4. When the scan does not return early, a glyph with three occurrences or more
is the tag of exactly one component: an `Ellipse` with two points, the corners
`(min column, min row)` and `(max column, max row)` of the box of its
occurrences; every occurrence lies in the box and each bound is attained.
The text `"1 1\n1 1\n"` gives one `Ellipse` spanning `(0,0)`-`(1,1)`. -/
theorem ellipse_of_three_occurrences :
    (∀ (mem : Int × Int) (text : List Char) (s : ScanState) (g : Char),
      scan text = some s → g ∈ glyphs → 3 ≤ text.count g →
      ∃ img c lo hi, parse mem text = some img ∧
        img.components.filter (fun c => decide (c.glyph = g)) = [c] ∧
        c.type = ComponentType.Ellipse ∧ c.points = [lo, hi] ∧
        (∀ p ∈ occurrences text g, lo.x ≤ p.x ∧ p.x ≤ hi.x ∧ lo.y ≤ p.y ∧ p.y ≤ hi.y) ∧
        (∃ p ∈ occurrences text g, p.x = lo.x) ∧ (∃ p ∈ occurrences text g, p.y = lo.y) ∧
        (∃ p ∈ occurrences text g, p.x = hi.x) ∧ (∃ p ∈ occurrences text g, p.y = hi.y)) ∧
    (∀ mem : Int × Int, parse mem "1 1\n1 1\n".toList =
      some ⟨2, 2, [⟨'1', ComponentType.Ellipse, [⟨0, 0⟩, ⟨1, 1⟩]⟩]⟩) := by
  constructor
  · intro mem text s g hs hgm h3
    obtain ⟨comps, hcl, hp⟩ := parse_of_scan mem hs
    obtain ⟨pre, post, st1, hg, h1, hidle⟩ := reach_idle hs hgm (by omega)
    have hlen : 3 ≤ (s.points.values g).length := by
      rw [scan_count hs g, if_pos hgm]; exact h3
    obtain ⟨r, hr⟩ := rectPoints_isSome hlen
    obtain ⟨lo, hi, hbox⟩ := rectPoints_box hr
    obtain ⟨comps2, hcl2, hf⟩ :=
      classify_single hg h1 (step_idle_ellipse hidle hlen hr) hidle rfl
    rw [hcl] at hcl2
    cases hcl2
    have hocc : occurrences text g = s.points.values g := by simp [occurrences, hs]
    rw [hocc]
    exact ⟨_, _, lo, hi, hp, hf, rfl, hbox⟩
  · intro mem
    exact parse_eval (s := ⟨2, 2, 0, [('1', ⟨1, 1⟩), ('1', ⟨0, 1⟩), ('1', ⟨1, 0⟩),
      ('1', ⟨0, 0⟩)]⟩) mem (by decide) (by decide)

theorem ellipse_of_three_occurrences_witness :
    ∃ img c lo hi, parse (0, 0) "1 1\n1 1\n".toList = some img ∧
      img.components.filter (fun c => decide (c.glyph = '1')) = [c] ∧
      c.type = ComponentType.Ellipse ∧ c.points = [lo, hi] ∧
      (∀ p ∈ occurrences "1 1\n1 1\n".toList '1',
        lo.x ≤ p.x ∧ p.x ≤ hi.x ∧ lo.y ≤ p.y ∧ p.y ≤ hi.y) ∧
      (∃ p ∈ occurrences "1 1\n1 1\n".toList '1', p.x = lo.x) ∧
      (∃ p ∈ occurrences "1 1\n1 1\n".toList '1', p.y = lo.y) ∧
      (∃ p ∈ occurrences "1 1\n1 1\n".toList '1', p.x = hi.x) ∧
      (∃ p ∈ occurrences "1 1\n1 1\n".toList '1', p.y = hi.y) :=
  ellipse_of_three_occurrences.1 (0, 0) "1 1\n1 1\n".toList
    ⟨2, 2, 0, [('1', ⟨1, 1⟩), ('1', ⟨0, 1⟩), ('1', ⟨1, 0⟩), ('1', ⟨0, 0⟩)]⟩ '1'
    (by decide) (by decide) (by decide)

/-- A glyph with two occurrences is the tag of one component, the `Line` through
`points.values(glyph)`. -/
theorem line_component (mem : Int × Int) {text : List Char} {s : ScanState} {g : Char}
    (hs : scan text = some s) (hgm : g ∈ glyphs) (h2 : text.count g = 2) :
    ∃ img a b, parse mem text = some img ∧ occurrences text g = [a, b] ∧
      img.components.filter (fun c => decide (c.glyph = g)) =
        [⟨g, ComponentType.Line, [a, b]⟩] := by
  obtain ⟨comps, hcl, hp⟩ := parse_of_scan mem hs
  obtain ⟨pre, post, st1, hg, h1, hidle⟩ := reach_idle hs hgm (by omega)
  have hlen : (s.points.values g).length = 2 := by
    rw [scan_count hs g, if_pos hgm]; exact h2
  have hocc : occurrences text g = s.points.values g := by simp [occurrences, hs]
  match hv : s.points.values g with
  | [] => rw [hv] at hlen; simp at hlen
  | [_] => rw [hv] at hlen; simp at hlen
  | _ :: _ :: _ :: _ => rw [hv] at hlen; simp at hlen
  | [a, b] =>
    obtain ⟨comps2, hcl2, hf⟩ :=
      classify_single hg h1 (step_idle_line hidle hv) hidle rfl
    rw [hcl] at hcl2
    cases hcl2
    rw [hocc, hv]
    exact ⟨_, a, b, hp, rfl, hf⟩

theorem parse_two_lines (mem : Int × Int) :
    parse mem "1 2\n2 1\n".toList =
      some ⟨2, 2, [⟨'1', ComponentType.Line, [⟨1, 1⟩, ⟨0, 0⟩]⟩,
        ⟨'2', ComponentType.Line, [⟨0, 1⟩, ⟨1, 0⟩]⟩]⟩ :=
  parse_eval (s := ⟨2, 2, 0, [('1', ⟨1, 1⟩), ('2', ⟨0, 1⟩), ('2', ⟨1, 0⟩),
    ('1', ⟨0, 0⟩)]⟩) mem (by decide) (by decide)

/-- C5. When the scan does not return early, a glyph with exactly two occurrences is
the tag of exactly one component: a `Line` with two points, the two cells where
the glyph occurs.  The text `"1 2\n2 1\n"` gives exactly two components, the
`Line`s tagged `1` and `2`, with `rows = 2` and `columns = 2`. -/
theorem line_of_two_occurrences :
    (∀ (mem : Int × Int) (text : List Char) (s : ScanState) (g : Char),
      scan text = some s → g ∈ glyphs → text.count g = 2 →
      ∃ img c, parse mem text = some img ∧
        img.components.filter (fun c => decide (c.glyph = g)) = [c] ∧
        c.type = ComponentType.Line ∧ c.points.length = 2 ∧
        c.points = occurrences text g) ∧
    (∀ mem : Int × Int, parse mem "1 2\n2 1\n".toList =
      some ⟨2, 2, [⟨'1', ComponentType.Line, [⟨1, 1⟩, ⟨0, 0⟩]⟩,
        ⟨'2', ComponentType.Line, [⟨0, 1⟩, ⟨1, 0⟩]⟩]⟩) := by
  constructor
  · intro mem text s g hs hgm h2
    obtain ⟨img, a, b, hp, hocc, hf⟩ := line_component mem hs hgm h2
    exact ⟨img, _, hp, hf, rfl, rfl, hocc.symm⟩
  · exact parse_two_lines

theorem line_of_two_occurrences_witness :
    ∃ img c, parse (0, 0) "1 2\n2 1\n".toList = some img ∧
      img.components.filter (fun c => decide (c.glyph = '2')) = [c] ∧
      c.type = ComponentType.Line ∧ c.points.length = 2 ∧
      c.points = occurrences "1 2\n2 1\n".toList '2' :=
  line_of_two_occurrences.1 (0, 0) "1 2\n2 1\n".toList
    ⟨2, 2, 0, [('1', ⟨1, 1⟩), ('2', ⟨0, 1⟩), ('2', ⟨1, 0⟩), ('1', ⟨0, 0⟩)]⟩ '2'
    (by decide) (by decide) (by decide)

/-- The components emitted once a prefix of the alphabet is visited, no polygon
being accumulated, are tagged after the prefix. -/
theorem classify_after {pts : QMultiHash} {pre post : List Char} {st2 : ClassifyState}
    (hg : glyphs = pre ++ post)
    (h : classifyLoop pts pre classifyInit = some st2)
    (hidle : st2.polygon.points = []) :
    ∃ c3, classify pts = some (st2.components ++ c3) ∧ ∀ c ∈ c3, c.glyph ∈ post := by
  have hg2 : glyphs = [] ++ pre ++ post := by rw [hg]; simp
  obtain ⟨c1, c3, hc, ht1, ht3⟩ :=
    classify_block hg2 (rfl : classifyLoop pts [] classifyInit = some classifyInit) h
      (by simp [classifyInit] : st2.components = classifyInit.components ++ st2.components)
      hidle
  have : c1 = [] := by
    cases c1 with
    | nil => rfl
    | cons a t => exact absurd (ht1 a (by simp)) (by simp)
  subst this
  exact ⟨c3, by simpa using hc, ht3⟩

/-- The text `"1 2 3\n"` is scanned to its end, the glyph `3` occurs once and its
successor `4` does not occur, and yet no `Point` is produced: the glyph `3` closes
the polygon that `1` opened, which is the only component. -/
theorem point_of_singleton_counterexample :
    scan "1 2 3\n".toList ≠ none ∧ "1 2 3\n".toList.count '3' = 1 ∧
    next '3' = '4' ∧ "1 2 3\n".toList.count '4' = 0 ∧
    parse (0, 0) "1 2 3\n".toList =
      some ⟨1, 3, [⟨'1', ComponentType.Polygon, [⟨0, 0⟩, ⟨1, 0⟩, ⟨2, 0⟩]⟩]⟩ ∧
    ¬ ∃ img, parse (0, 0) "1 2 3\n".toList = some img ∧
      ∃ c ∈ img.components, c.glyph = '3' ∧ c.type = ComponentType.Point := by
  have hp : parse (0, 0) "1 2 3\n".toList =
      some ⟨1, 3, [⟨'1', ComponentType.Polygon, [⟨0, 0⟩, ⟨1, 0⟩, ⟨2, 0⟩]⟩]⟩ := by decide
  refine ⟨by decide, by decide, by decide, by decide, hp, ?_⟩
  rintro ⟨img, himg, c, hc, hg, _⟩
  rw [hp] at himg
  cases himg
  simp only [List.mem_singleton] at hc
  subst hc
  exact absurd hg (by decide)

/-- C6, amended. When the scan does not return early, take a glyph `g` with exactly
one occurrence whose successor in the alphabet, if any, has not exactly one
occurrence.  If `g` is the first symbol or its predecessor has not exactly one
occurrence, exactly one component is tagged `g`: a `Point` at the cell of `g`.
If its predecessor has exactly one occurrence, no component is tagged `g` and
the cell of `g` is the last point of a `Polygon` component.  The text
`"1 2 3\n"` gives a single `Polygon` tagged `1` with three points. -/
theorem point_of_singleton :
    (∀ (mem : Int × Int) (text : List Char) (s : ScanState) (g : Char)
      (pre post : List Char),
      scan text = some s → glyphs = pre ++ g :: post → text.count g = 1 →
      (∀ x ∈ post.head?, text.count x ≠ 1) →
      ((∀ x ∈ pre.getLast?, text.count x ≠ 1) →
        ∃ img c, parse mem text = some img ∧
          img.components.filter (fun c => decide (c.glyph = g)) = [c] ∧
          c.type = ComponentType.Point ∧ c.points.length = 1 ∧
          c.points = occurrences text g) ∧
      ((∃ x ∈ pre.getLast?, text.count x = 1) →
        ∃ img, parse mem text = some img ∧
          img.components.filter (fun c => decide (c.glyph = g)) = [] ∧
          ∃ c ∈ img.components, c.type = ComponentType.Polygon ∧
            c.points.getLast? = (occurrences text g).head?)) ∧
    (∀ mem : Int × Int, parse mem "1 2 3\n".toList =
      some ⟨1, 3, [⟨'1', ComponentType.Polygon, [⟨0, 0⟩, ⟨1, 0⟩, ⟨2, 0⟩]⟩]⟩) := by
  constructor
  · intro mem text s g pre post hs hg h1c hpost
    obtain ⟨comps, hcl, hp⟩ := parse_of_scan mem hs
    have hgm : g ∈ glyphs := by rw [hg]; simp
    have hv := values_of_count_one hs hgm h1c
    have hn : (s.points.values (next g)).length ≠ 1 := next_after_block hs hg hpost
    have hocc : occurrences text g = s.points.values g := by simp [occurrences, hs]
    obtain ⟨st1, h1, htag1⟩ := loop_before s.points hg
    constructor
    · intro hpre
      have hidle : st1.polygon.points = [] :=
        idle_before hg h1 (Or.inr (fun x hx => count_ne_one hs (hpre x hx)))
      obtain ⟨comps2, hcl2, hf⟩ :=
        classify_single hg h1 (step_idle_point hidle hv hn) hidle rfl
      rw [hcl] at hcl2
      cases hcl2
      rw [hocc]
      exact ⟨_, _, hp, hf, rfl, rfl, hv.symm⟩
    · rintro ⟨x, hx, hxc⟩
      rcases snoc_cases pre with e | ⟨t, b, e⟩
      · subst e; simp at hx
      subst e
      have hxb : x = b := by simpa using hx.symm
      subst hxb
      have hc := glyphs_consecutive
      rw [hg, List.append_assoc] at hc
      have hnb : next x = g := consecutive_next hc
      have hxm : x ∈ glyphs := by rw [hg]; simp
      have hpend : st1.polygon.points ≠ [] := by
        rw [loop_end h1, hnb, scan_count hs x, scan_count hs g, if_pos hxm, if_pos hgm]
        exact ⟨hxc, h1c⟩
      have hstep := step_pending_emit hpend hv hn
      have h2 : classifyLoop s.points ((t ++ [x]) ++ [g]) classifyInit =
          some ⟨{ st1.polygon with points := [] }, st1.components ++
            [{ st1.polygon with
               points := st1.polygon.points ++ [(s.points.values g).headD ⟨0, 0⟩] }]⟩ := by
        rw [classifyLoop_append, h1]
        simp only [Option.some_bind, classifyLoop_cons, hstep]
        rfl
      obtain ⟨c3, hcl3, ht3⟩ :=
        classify_after (by rw [hg]; simp : glyphs = ((t ++ [x]) ++ [g]) ++ post) h2 rfl
      rw [hcl] at hcl3
      cases hcl3
      have htype := (loop_arity h1 (by simp [classifyInit]) rfl).2
      have hptag : st1.polygon.glyph ∈ t ++ [x] := by
        obtain ⟨tg, htg, e⟩ := loop_tags h1
        have : st1.polygon.glyph ∈ tagsOf st1 := by simp [tagsOf, hpend]
        rw [e] at this
        simp only [tagsOf, classifyInit, List.map_nil, if_true, List.append_nil,
          List.nil_append] at this
        exact htg.subset this
      have hnd := glyphs_nodup
      rw [hg] at hnd
      have hgpre : g ∉ t ++ [x] := fun hm =>
        (List.nodup_append.1 hnd).2.2 hm (by simp)
      have hgpost : g ∉ post := fun hm => by
        have := (List.nodup_append.1 hnd).2.1
        exact (List.nodup_cons.1 this).1 hm
      refine ⟨_, hp, ?_, ⟨st1.polygon.glyph, st1.polygon.type,
        st1.polygon.points ++ [(s.points.values g).headD ⟨0, 0⟩]⟩, ?_, htype, ?_⟩
      · rw [List.filter_eq_nil_iff]
        intro c hcm
        simp only [decide_eq_true_eq]
        intro hcg
        rcases List.mem_append.1 hcm with hcm | hcm
        · rcases List.mem_append.1 hcm with hcm | hcm
          · exact hgpre (hcg ▸ htag1 c hcm)
          · simp only [List.mem_singleton] at hcm
            subst hcm
            exact hgpre (hcg ▸ hptag)
        · exact hgpost (hcg ▸ ht3 c hcm)
      · simp
      · rw [hocc, hv]; simp
  · intro mem
    exact parse_eval (s := ⟨1, 3, 0, [('3', ⟨2, 0⟩), ('2', ⟨1, 0⟩), ('1', ⟨0, 0⟩)]⟩) mem
      (by decide) (by decide)

set_option maxRecDepth 100000 in
theorem point_of_singleton_witness :
    (∃ img c, parse (0, 0) "1 3\n".toList = some img ∧
      img.components.filter (fun c => decide (c.glyph = '3')) = [c] ∧
      c.type = ComponentType.Point ∧ c.points.length = 1 ∧
      c.points = occurrences "1 3\n".toList '3') ∧
    (∃ img, parse (0, 0) "1 2 3\n".toList = some img ∧
      img.components.filter (fun c => decide (c.glyph = '3')) = [] ∧
      ∃ c ∈ img.components, c.type = ComponentType.Polygon ∧
        c.points.getLast? = (occurrences "1 2 3\n".toList '3').head?) :=
  ⟨(point_of_singleton.1 (0, 0) "1 3\n".toList
      ⟨1, 2, 0, [('3', ⟨1, 0⟩), ('1', ⟨0, 0⟩)]⟩ '3' ['1', '2'] (glyphs.drop 3)
      (by decide) (by decide) (by decide) (by decide)).1 (by decide),
   (point_of_singleton.1 (0, 0) "1 2 3\n".toList
      ⟨1, 3, 0, [('3', ⟨2, 0⟩), ('2', ⟨1, 0⟩), ('1', ⟨0, 0⟩)]⟩ '3' ['1', '2'] (glyphs.drop 3)
      (by decide) (by decide) (by decide) (by decide)).2 (by decide)⟩

/-! ## The order of the occurrences -/

theorem ordered_cell {c : Char} {s : ScanState} (h : Ordered s) : Ordered (cell c s) := by
  obtain ⟨hp, hb⟩ := h
  have hold : ∀ kv ∈ s.points, scannedBefore kv.2 ⟨s.column + 1, s.row⟩ := by
    intro kv hkv
    rcases hb kv hkv with h1 | ⟨h1, h2⟩
    · exact Or.inl h1
    · exact Or.inr ⟨h1, by simp only at h2 ⊢; omega⟩
  rw [Ordered, cell_points]
  by_cases hg : c ∈ glyphs
  · simp only [hg, if_true, List.pairwise_cons, List.mem_cons]
    refine ⟨⟨fun kv hkv => hb kv hkv, hp⟩, ?_⟩
    intro kv hkv
    rcases hkv with e | hkv
    · subst e; exact Or.inr ⟨rfl, by simp [cell]⟩
    · exact hold kv hkv
  · simp only [hg, if_false]
    exact ⟨hp, hold⟩

theorem ordered_rowEnd {s s1 : ScanState} (h : Ordered s) (he : rowEnd s = some s1) :
    Ordered s1 := by
  obtain ⟨hp, hb⟩ := h
  have hnew : ∀ kv ∈ s.points, scannedBefore kv.2 ⟨0, s.row + 1⟩ := by
    intro kv hkv
    rcases hb kv hkv with h1 | ⟨h1, _⟩
    · exact Or.inl (by simp only at h1 ⊢; omega)
    · exact Or.inl (by simp only at h1 ⊢; omega)
  unfold rowEnd at he
  split at he
  · cases he; exact ⟨hp, hnew⟩
  · split at he
    · cases he
    · cases he; exact ⟨hp, hnew⟩

theorem ordered_step {c : Char} {last : Bool} {s s1 : ScanState} (h : Ordered s)
    (he : scanStep c last s = some s1) : Ordered s1 := by
  by_cases hn : c = '\n'
  · subst hn
    rw [scanStep_newline] at he
    exact ordered_rowEnd h he
  · by_cases hs : isSpace c = true
    · rw [scanStep_space hn hs] at he
      cases he; exact h
    · have hs2 : isSpace c = false := by simpa using hs
      rw [scanStep_cell hn hs2] at he
      split at he
      · exact ordered_rowEnd (ordered_cell h) he
      · cases he; exact ordered_cell h

theorem ordered_loop {text : List Char} {s s1 : ScanState} (h : Ordered s)
    (he : scanLoop text s = some s1) : Ordered s1 := by
  induction text generalizing s with
  | nil => cases he; exact h
  | cons c rest ih =>
    rw [scanLoop_cons] at he
    cases h1 : scanStep c rest.isEmpty s with
    | none => rw [h1] at he; cases he
    | some s2 =>
      rw [h1] at he
      exact ih (ordered_step h h1) he

/-- The occurrence list of a glyph goes from the cell scanned last to the cell
scanned first. -/
theorem occurrences_order {text : List Char} {s : ScanState} (hs : scan text = some s)
    (g : Char) : (occurrences text g).Pairwise (fun p q => scannedBefore q p) := by
  have ho : Ordered s := ordered_loop ⟨List.Pairwise.nil, by simp⟩ hs
  simp only [occurrences, hs, QMultiHash.values]
  rw [List.pairwise_map]
  exact List.Pairwise.sublist (List.filter_sublist _) ho.1

/-- The text `"1 2\n2 1\n"` gives for the glyph `1` the line from `(1,1)` to `(0,0)`,
the cell scanned last first, and not the line from `(0,0)` to `(1,1)`. -/
theorem line_order_counterexample :
    occurrences "1 2\n2 1\n".toList '1' = [⟨1, 1⟩, ⟨0, 0⟩] ∧
    scannedBefore ⟨0, 0⟩ ⟨1, 1⟩ ∧
    ∃ img, parse (0, 0) "1 2\n2 1\n".toList = some img ∧
      img.components.filter (fun c => decide (c.glyph = '1')) =
        [⟨'1', ComponentType.Line, [⟨1, 1⟩, ⟨0, 0⟩]⟩] ∧
      (⟨'1', ComponentType.Line, [⟨0, 0⟩, ⟨1, 1⟩]⟩ : Component) ∉ img.components := by
  exact ⟨by decide, Or.inl (by decide), _, parse_two_lines (0, 0), by decide, by decide⟩

/-- C7, amended. The occurrence list handed to the classification loop goes from
the occurrence scanned last to the occurrence scanned first (the scan goes row
by row from the top, left to right in a row).  So for a glyph with exactly two
occurrences the first point of its `Line` is the occurrence scanned second and
the second point is the occurrence scanned first; for `"1 2\n2 1\n"` the `Line`
tagged `1` is `[(1,1), (0,0)]`. -/
theorem line_points_last_scanned_first :
    (∀ (text : List Char) (s : ScanState) (g : Char), scan text = some s →
      (occurrences text g).Pairwise (fun p q => scannedBefore q p)) ∧
    (∀ (mem : Int × Int) (text : List Char) (s : ScanState) (g : Char),
      scan text = some s → g ∈ glyphs → text.count g = 2 →
      ∃ img p q, parse mem text = some img ∧
        img.components.filter (fun c => decide (c.glyph = g)) =
          [⟨g, ComponentType.Line, [p, q]⟩] ∧
        occurrences text g = [p, q] ∧ scannedBefore q p) ∧
    (∀ mem : Int × Int, ∃ img, parse mem "1 2\n2 1\n".toList = some img ∧
      img.components.filter (fun c => decide (c.glyph = '1')) =
        [⟨'1', ComponentType.Line, [⟨1, 1⟩, ⟨0, 0⟩]⟩]) := by
  refine ⟨fun text s g hs => occurrences_order hs g, ?_, ?_⟩
  · intro mem text s g hs hgm h2
    obtain ⟨img, a, b, hp, hocc, hf⟩ := line_component mem hs hgm h2
    have ho := occurrences_order hs g
    rw [hocc] at ho
    exact ⟨img, a, b, hp, hf, hocc, by simpa using ho⟩
  · intro mem
    exact ⟨_, parse_two_lines mem, by decide⟩

theorem line_points_last_scanned_first_witness :
    ∃ img p q, parse (0, 0) "1 2\n2 1\n".toList = some img ∧
      img.components.filter (fun c => decide (c.glyph = '2')) =
        [⟨'2', ComponentType.Line, [p, q]⟩] ∧
      occurrences "1 2\n2 1\n".toList '2' = [p, q] ∧ scannedBefore q p :=
  line_points_last_scanned_first.2.1 (0, 0) "1 2\n2 1\n".toList
    ⟨2, 2, 0, [('1', ⟨1, 1⟩), ('2', ⟨0, 1⟩), ('2', ⟨1, 0⟩), ('1', ⟨0, 0⟩)]⟩ '2'
    (by decide) (by decide) (by decide)

/-! ## The last row, the order of the tags and the arities -/

theorem rowEnd_column {s s1 : ScanState} (h : rowEnd s = some s1) : s1.column = 0 := by
  unfold rowEnd at h
  split at h
  · cases h; rfl
  · split at h
    · cases h
    · cases h; rfl

theorem scanStep_column {c : Char} {last : Bool} {s s1 : ScanState}
    (h : scanStep c last s = some s1) (h0 : 0 ≤ s.column) : 0 ≤ s1.column := by
  by_cases hn : c = '\n'
  · subst hn
    rw [scanStep_newline] at h
    rw [rowEnd_column h]
  · by_cases hs : isSpace c = true
    · rw [scanStep_space hn hs] at h
      cases h; exact h0
    · have hs2 : isSpace c = false := by simpa using hs
      rw [scanStep_cell hn hs2] at h
      split at h
      · rw [rowEnd_column h]
      · cases h; simp only [cell]; omega

/-- A text that ends with a cell is scanned like the same text followed by a
newline: the end of the input completes the last row. -/
theorem scanLoop_implicit_newline (t : List Char) {c : Char} (hn : c ≠ '\n')
    (hs : isSpace c = false) (s : ScanState) (h0 : 0 ≤ s.column) :
    scanLoop (t ++ [c]) s = scanLoop (t ++ [c] ++ ['\n']) s := by
  induction t generalizing s with
  | nil =>
    have hc : (cell c s).column ≠ 0 := by simp only [cell]; omega
    simp only [List.nil_append, List.singleton_append, scanLoop_cons, scanStep_cell hn hs,
      List.isEmpty_nil, List.isEmpty_cons, true_and, Bool.false_eq_true, false_and, if_false,
      Option.some_bind, scanStep_newline]
    simp only [hc, ne_eq, not_false_eq_true, if_true]
  | cons d r ih =>
    have hl : (r ++ [c]).isEmpty = false := by cases r <;> rfl
    have hl2 : (r ++ [c] ++ ['\n']).isEmpty = false := by cases r <;> rfl
    simp only [List.cons_append]
    rw [scanLoop_cons, scanLoop_cons, hl, hl2]
    cases h1 : scanStep d false s with
    | none => rfl
    | some s1 => exact ih s1 (scanStep_column h1 h0)

/-- C8. A text that ends with a cell parses like the same text followed by a
newline.  The texts `"1 "` and `"1\n2 "` end with a space after the last cell: the
scanning loop skips the space before it tests for the end of the input, so the
last row is not counted, and the result differs from that of the same text
followed by a newline. -/
theorem parse_trailing_space :
    (∀ (mem : Int × Int) (t : List Char) (c : Char), c ≠ '\n' → isSpace c = false →
      parse mem (t ++ [c]) = parse mem (t ++ [c] ++ ['\n'])) ∧
    (∀ mem : Int × Int, parse mem "1 ".toList =
      some ⟨0, 0, [⟨'1', ComponentType.Point, [⟨0, 0⟩]⟩]⟩) ∧
    (∀ mem : Int × Int, parse mem "1 \n".toList =
      some ⟨1, 1, [⟨'1', ComponentType.Point, [⟨0, 0⟩]⟩]⟩) ∧
    (∀ mem : Int × Int, parse mem "1\n2 ".toList =
      some ⟨1, 1, [⟨'1', ComponentType.Polygon, [⟨0, 0⟩, ⟨0, 1⟩]⟩]⟩) ∧
    (∀ mem : Int × Int, parse mem "1\n2 \n".toList =
      some ⟨2, 1, [⟨'1', ComponentType.Polygon, [⟨0, 0⟩, ⟨0, 1⟩]⟩]⟩) ∧
    (∀ mem : Int × Int, parse mem "1 ".toList ≠ parse mem ("1 ".toList ++ ['\n'])) := by
  have h1 : ∀ mem : Int × Int, parse mem "1 ".toList =
      some ⟨0, 0, [⟨'1', ComponentType.Point, [⟨0, 0⟩]⟩]⟩ := fun mem =>
    parse_eval (s := ⟨0, 0, 1, [('1', ⟨0, 0⟩)]⟩) mem (by decide) (by decide)
  have h2 : ∀ mem : Int × Int, parse mem "1 \n".toList =
      some ⟨1, 1, [⟨'1', ComponentType.Point, [⟨0, 0⟩]⟩]⟩ := fun mem =>
    parse_eval (s := ⟨1, 1, 0, [('1', ⟨0, 0⟩)]⟩) mem (by decide) (by decide)
  refine ⟨?_, h1, h2, fun mem => ?_, fun mem => ?_, fun mem => ?_⟩
  · intro mem t c hn hs
    have e : scan (t ++ [c]) = scan (t ++ [c] ++ ['\n']) :=
      scanLoop_implicit_newline t hn hs _ (le_refl _)
    simp only [parse, e]
  · exact parse_eval (s := ⟨1, 1, 1, [('2', ⟨0, 1⟩), ('1', ⟨0, 0⟩)]⟩) mem
      (by decide) (by decide)
  · exact parse_eval (s := ⟨2, 1, 0, [('2', ⟨0, 1⟩), ('1', ⟨0, 0⟩)]⟩) mem
      (by decide) (by decide)
  · have e : "1 ".toList ++ ['\n'] = "1 \n".toList := by decide
    rw [e, h1, h2]
    decide

theorem parse_trailing_space_witness :
    parse (0, 0) ("1 1\n1".toList ++ ['1']) = parse (0, 0) ("1 1\n1".toList ++ ['1'] ++ ['\n']) :=
  parse_trailing_space.1 (0, 0) "1 1\n1".toList '1' (by decide) (by decide)

set_option maxRecDepth 1000000 in
theorem glyphs_index_increasing :
    glyphs.Pairwise (fun a b => indexOf glyphs a < indexOf glyphs b) := by decide

/-- The tags of the classified components form a sublist of the alphabet. -/
theorem classify_tags {pts : QMultiHash} {comps : List Component}
    (h : classify pts = some comps) :
    List.Sublist (comps.map (fun c => c.glyph)) glyphs := by
  rw [classify_eq] at h
  cases hl : classifyLoop pts glyphs classifyInit with
  | none => rw [hl] at h; cases h
  | some st =>
    rw [hl] at h
    simp only [Option.map_some', Option.some.injEq] at h
    subst h
    obtain ⟨t, ht, e⟩ := loop_tags hl
    simp only [tagsOf, classifyInit, List.map_nil, if_true, List.append_nil,
      List.nil_append] at e
    have hs : List.Sublist (st.components.map (fun c => c.glyph)) t := by
      rw [← e]
      exact List.sublist_append_left _ _
    exact hs.trans ht

/-- C9. For every text, the tags of the components `parse` returns are alphabet
symbols, strictly increasing in alphabet index: the components come in the
order of the alphabet and no two of them have the same tag. -/
theorem parse_tags_increasing (mem : Int × Int) (text : List Char) :
    ∃ img, parse mem text = some img ∧
      (∀ c ∈ img.components, c.glyph ∈ glyphs) ∧
      img.components.Pairwise
        (fun a b => indexOf glyphs a.glyph < indexOf glyphs b.glyph) := by
  cases hs : scan text with
  | none =>
    exact ⟨_, parse_of_abort mem hs, by simp [QTextImageData.fresh],
      by simp [QTextImageData.fresh]⟩
  | some s =>
    obtain ⟨comps, hcl, hp⟩ := parse_of_scan mem hs
    have hsub := classify_tags hcl
    refine ⟨_, hp, ?_, ?_⟩
    · intro c hc
      exact hsub.subset (List.mem_map.2 ⟨c, hc, rfl⟩)
    · have hpw := List.Pairwise.sublist hsub glyphs_index_increasing
      rw [List.pairwise_map] at hpw
      exact hpw

/-- The text `"1 2\n"` gives a `Polygon` with two points only. -/
theorem polygon_arity_counterexample :
    parse (0, 0) "1 2\n".toList =
      some ⟨1, 2, [⟨'1', ComponentType.Polygon, [⟨0, 0⟩, ⟨1, 0⟩]⟩]⟩ ∧
    ∃ img c, parse (0, 0) "1 2\n".toList = some img ∧ c ∈ img.components ∧
      c.type = ComponentType.Polygon ∧ ¬ 3 ≤ c.points.length := by
  have hp : parse (0, 0) "1 2\n".toList =
      some ⟨1, 2, [⟨'1', ComponentType.Polygon, [⟨0, 0⟩, ⟨1, 0⟩]⟩]⟩ := by decide
  exact ⟨hp, _, ⟨'1', ComponentType.Polygon, [⟨0, 0⟩, ⟨1, 0⟩]⟩, hp, by simp, rfl, by decide⟩

/-- C10, amended. For every text, every component `parse` returns has a non-empty
point list of the arity of its kind: exactly 1 point for a `Point`, exactly 2
for a `Line`, at least 2 for a `Polygon`, exactly 2 for an `Ellipse`. -/
theorem parse_arity (mem : Int × Int) (text : List Char) :
    ∃ img, parse mem text = some img ∧ ∀ c ∈ img.components,
      c.points ≠ [] ∧
      (c.type = ComponentType.Point → c.points.length = 1) ∧
      (c.type = ComponentType.Line → c.points.length = 2) ∧
      (c.type = ComponentType.Polygon → 2 ≤ c.points.length) ∧
      (c.type = ComponentType.Ellipse → c.points.length = 2) := by
  have key : ∀ c : Component, Arity c →
      c.points ≠ [] ∧
      (c.type = ComponentType.Point → c.points.length = 1) ∧
      (c.type = ComponentType.Line → c.points.length = 2) ∧
      (c.type = ComponentType.Polygon → 2 ≤ c.points.length) ∧
      (c.type = ComponentType.Ellipse → c.points.length = 2) := by
    intro c ha
    have hne : c.points ≠ [] := by
      intro e
      unfold Arity at ha
      rw [e] at ha
      cases ht : c.type <;> rw [ht] at ha <;> simp at ha
    refine ⟨hne, ?_, ?_, ?_, ?_⟩ <;> intro ht <;> unfold Arity at ha <;>
      rw [ht] at ha <;> exact ha
  cases hs : scan text with
  | none =>
    exact ⟨_, parse_of_abort mem hs, by simp [QTextImageData.fresh]⟩
  | some s =>
    obtain ⟨comps, hcl, hp⟩ := parse_of_scan mem hs
    refine ⟨_, hp, ?_⟩
    rw [classify_eq] at hcl
    cases hl : classifyLoop s.points glyphs classifyInit with
    | none => rw [hl] at hcl; cases hcl
    | some st =>
      rw [hl] at hcl
      simp only [Option.map_some', Option.some.injEq] at hcl
      subst hcl
      have := (loop_arity hl (by simp [classifyInit]) rfl).1
      intro c hc
      exact key c (this c hc)

/-! ## Glyphs without occurrence, texts without cell -/

/-- A tag the loop commits to in an iteration is the visited glyph, which has an
occurrence. -/
theorem step_tags_occ {pts : QMultiHash} {st st1 : ClassifyState} {g : Char}
    (h : classifyStep pts st g = some st1) :
    ∀ x ∈ tagsOf st1, x ∈ tagsOf st ∨ (x = g ∧ pts.values g ≠ []) := by
  have hc := step_cases pts st g
  rw [h] at hc
  generalize hst : some st1 = o at hc
  cases hc with
  | fail hp hv => cases hst
  | emit a hp hv hn =>
    cases hst; intro x hx; left
    simpa [tagsOf, hp] using hx
  | keep a hp hv hn =>
    cases hst; intro x hx; left
    simpa [tagsOf, hp] using hx
  | zero hp hv => cases hst; intro x hx; exact Or.inl hx
  | start a hp hv hn =>
    cases hst; intro x hx
    simp only [tagsOf, hp, if_true, List.append_nil, List.mem_append, List.mem_map,
      List.cons_ne_self, if_false, List.mem_singleton, reduceCtorEq] at hx ⊢
    rcases hx with hx | hx
    · exact Or.inl hx
    · exact Or.inr ⟨hx, by rw [hv]; simp⟩
  | point a hp hv hn =>
    cases hst; intro x hx
    simp only [tagsOf, hp, if_true, List.append_nil, List.map_append, List.map_cons,
      List.map_nil, List.mem_append, List.mem_map, List.mem_singleton] at hx ⊢
    rcases hx with hx | hx
    · exact Or.inl hx
    · exact Or.inr ⟨hx, by rw [hv]; simp⟩
  | line a b hp hv =>
    cases hst; intro x hx
    simp only [tagsOf, hp, if_true, List.append_nil, List.map_append, List.map_cons,
      List.map_nil, List.mem_append, List.mem_map, List.mem_singleton] at hx ⊢
    rcases hx with hx | hx
    · exact Or.inl hx
    · exact Or.inr ⟨hx, by rw [hv]; simp⟩
  | ellipse r hp hv hr =>
    cases hst; intro x hx
    simp only [tagsOf, hp, if_true, List.append_nil, List.map_append, List.map_cons,
      List.map_nil, List.mem_append, List.mem_map, List.mem_singleton] at hx ⊢
    rcases hx with hx | hx
    · exact Or.inl hx
    · refine Or.inr ⟨hx, ?_⟩
      intro e; rw [e] at hv; simp at hv

theorem loop_tags_occ {pts : QMultiHash} {gs : List Char} {st st1 : ClassifyState}
    (h : classifyLoop pts gs st = some st1) :
    ∀ x ∈ tagsOf st1, x ∈ tagsOf st ∨ (x ∈ gs ∧ pts.values x ≠ []) := by
  induction gs generalizing st with
  | nil => cases h; intro x hx; exact Or.inl hx
  | cons g rest ih =>
    rw [classifyLoop_cons] at h
    cases h1 : classifyStep pts st g with
    | none => rw [h1] at h; cases h
    | some st2 =>
      rw [h1] at h
      intro x hx
      rcases ih h x hx with hx2 | ⟨hx2, hv⟩
      · rcases step_tags_occ h1 x hx2 with hx3 | ⟨hx3, hv⟩
        · exact Or.inl hx3
        · exact Or.inr ⟨by simp [hx3], hx3 ▸ hv⟩
      · exact Or.inr ⟨by simp [hx2], hv⟩

/-- The tag of a classified component is a glyph with an occurrence in the hash. -/
theorem classify_tag_occ {pts : QMultiHash} {comps : List Component}
    (h : classify pts = some comps) :
    ∀ c ∈ comps, c.glyph ∈ glyphs ∧ pts.values c.glyph ≠ [] := by
  rw [classify_eq] at h
  cases hl : classifyLoop pts glyphs classifyInit with
  | none => rw [hl] at h; cases h
  | some st =>
    rw [hl] at h
    simp only [Option.map_some', Option.some.injEq] at h
    subst h
    intro c hc
    have hm : c.glyph ∈ tagsOf st := by
      simp only [tagsOf, List.mem_append, List.mem_map]
      exact Or.inl ⟨c, hc, rfl⟩
    rcases loop_tags_occ hl c.glyph hm with hx | hx
    · simp [tagsOf, classifyInit] at hx
    · exact hx

/-- C12. For every text, a glyph without occurrence in the text never produces a
component: the tag of every component is an alphabet symbol that occurs at least
once in the text, and a text without alphabet symbol gives no component. -/
theorem parse_tags_occur (mem : Int × Int) (text : List Char) :
    ∃ img, parse mem text = some img ∧
      (∀ c ∈ img.components, c.glyph ∈ glyphs ∧ 1 ≤ text.count c.glyph) ∧
      (∀ g, text.count g = 0 → ∀ c ∈ img.components, c.glyph ≠ g) ∧
      ((∀ ch ∈ text, ch ∉ glyphs) → img.components = []) := by
  cases hs : scan text with
  | none =>
    exact ⟨_, parse_of_abort mem hs, by simp [QTextImageData.fresh],
      by simp [QTextImageData.fresh], by simp [QTextImageData.fresh]⟩
  | some s =>
    obtain ⟨comps, hcl, hp⟩ := parse_of_scan mem hs
    have key : ∀ c ∈ comps, c.glyph ∈ glyphs ∧ 1 ≤ text.count c.glyph := by
      intro c hc
      obtain ⟨hg, hv⟩ := classify_tag_occ hcl c hc
      refine ⟨hg, ?_⟩
      have hlen := scan_count hs c.glyph
      rw [if_pos hg] at hlen
      have : (s.points.values c.glyph).length ≠ 0 := by
        intro e; exact hv (List.length_eq_zero.1 e)
      omega
    refine ⟨_, hp, key, ?_, ?_⟩
    · intro g hg c hc e
      have := (key c hc).2
      rw [e, hg] at this
      omega
    · intro hno
      cases hcomps : comps with
      | nil => rfl
      | cons c t =>
        exfalso
        have hc : c ∈ comps := by rw [hcomps]; simp
        obtain ⟨hg, hcount⟩ := key c hc
        have hmem : c.glyph ∈ text := List.count_pos_iff.1 (by omega)
        exact hno _ hmem hg

theorem parse_tags_occur_witness :
    (∀ ch ∈ ". #\n".toList, ch ∉ glyphs) ∧
    ∃ img, parse (3, 4) ". #\n".toList = some img ∧ img.components = [] := by
  have hno : ∀ ch ∈ ". #\n".toList, ch ∉ glyphs := by decide
  obtain ⟨img, hp, _, _, h⟩ := parse_tags_occur (3, 4) ". #\n".toList
  exact ⟨hno, img, hp, h hno⟩

/-- A text of white space and newlines only is scanned to its end with no cell: the
hash stays empty and `columns` stays 0. -/
theorem scanLoop_no_cell (text : List Char) (s : ScanState)
    (hsp : ∀ c ∈ text, isSpace c = true)
    (hcol : s.column = 0) (hw : s.columns = 0) (hpts : s.points = []) :
    ∃ s1, scanLoop text s = some s1 ∧ s1.column = 0 ∧ s1.columns = 0 ∧ s1.points = [] := by
  induction text generalizing s with
  | nil => exact ⟨s, rfl, hcol, hw, hpts⟩
  | cons c rest ih =>
    have hrest : ∀ d ∈ rest, isSpace d = true := fun d hd => hsp d (by simp [hd])
    rw [scanLoop_cons]
    by_cases hn : c = '\n'
    · subst hn
      rw [scanStep_newline]
      by_cases hz : s.row = 0
      · have e : rowEnd s = some { s with columns := s.column, column := 0, row := s.row + 1 } := by
          simp [rowEnd, hz]
        rw [e]
        exact ih _ hrest rfl hcol hpts
      · have e : rowEnd s = some { s with column := 0, row := s.row + 1 } := by
          simp [rowEnd, hz, hcol, hw]
        rw [e]
        exact ih _ hrest rfl hw hpts
    · rw [scanStep_space hn (hsp c (by simp))]
      exact ih s hrest hcol hw hpts

set_option maxRecDepth 100000 in
theorem classify_empty : classify [] = some [] := by decide

/-- C13. The empty text parses to `rows = 0`, `columns = 0`, no component, and
`isValid()` false.  For every text without occupied cell (white space and
newlines only) `isValid()` is false and there is no component.  `isValid()`
holds exactly when `rows` and `columns` are both non-zero. -/
theorem parse_no_cell :
    (∀ mem : Int × Int, parse mem [] = some ⟨0, 0, []⟩ ∧
      isValid ⟨0, 0, []⟩ = false) ∧
    (∀ (mem : Int × Int) (text : List Char), (∀ c ∈ text, isSpace c = true) →
      ∃ img, parse mem text = some img ∧ isValid img = false ∧
        img.components = [] ∧ img.columns = 0) ∧
    (∀ d : QTextImageData, isValid d = true ↔ (d.rows ≠ 0 ∧ d.columns ≠ 0)) := by
  refine ⟨?_, ?_, ?_⟩
  · intro mem
    exact ⟨parse_eval (s := ⟨0, 0, 0, []⟩) mem rfl classify_empty, by decide⟩
  · intro mem text hsp
    obtain ⟨s, hs, _, hw, hpts⟩ := scanLoop_no_cell text ⟨0, 0, 0, []⟩ hsp rfl rfl rfl
    have hcl : classify s.points = some [] := by rw [hpts]; exact classify_empty
    refine ⟨_, parse_eval mem hs hcl, ?_, rfl, hw⟩
    simp [isValid, hw]
  · intro d
    simp [isValid]

theorem parse_no_cell_witness :
    ∃ img, parse (7, 7) " \n\t\n".toList = some img ∧ isValid img = false ∧
      img.components = [] ∧ img.columns = 0 :=
  parse_no_cell.2.1 (7, 7) " \n\t\n".toList (by decide)

/-! ## The assertion of the classification loop -/

/-- C15. For every text, whenever the classification loop reaches a glyph while a
polygon is being accumulated (`polygon.points` not empty), that glyph has
exactly one occurrence: the condition of `Q_ASSERT(glyphPoints.size() == 1)`
holds, `glyphPoints.front()` is defined, and the loop runs to its end. -/
theorem assertion_never_fails (text : List Char) (s : ScanState) (hs : scan text = some s) :
    (∀ (pre post : List Char) (g : Char), glyphs = pre ++ g :: post →
      ∃ st, classifyLoop s.points pre classifyInit = some st ∧
        (st.polygon.points ≠ [] →
          ∃ front, s.points.values g = [front] ∧ text.count g = 1 ∧
            classifyStep s.points st g ≠ none)) ∧
    (∃ comps, classify s.points = some comps) := by
  refine ⟨?_, classify_total s.points⟩
  intro pre post g hg
  obtain ⟨st, h1, _⟩ := loop_before s.points hg
  refine ⟨st, h1, ?_⟩
  intro hp
  have hgm : g ∈ glyphs := by rw [hg]; simp
  have hlen : (s.points.values g).length = 1 := by
    by_contra hne
    exact hp (idle_before hg h1 (Or.inl hne))
  have hcount : text.count g = 1 := by
    have := scan_count hs g
    rw [if_pos hgm] at this
    omega
  rcases length_eq_one_cases (s.points.values g) with ⟨a, ha⟩ | hne
  · refine ⟨a, ha, hcount, ?_⟩
    obtain ⟨st1, e⟩ := step_total s.points st g (fun _ => hlen)
    rw [e]; simp
  · exact absurd hlen hne

set_option maxRecDepth 100000 in
theorem assertion_never_fails_witness :
    ∃ st, classifyLoop [('3', ⟨2, 0⟩), ('2', ⟨1, 0⟩), ('1', ⟨0, 0⟩)] ['1'] classifyInit =
        some st ∧
      (st.polygon.points ≠ [] →
        ∃ front, QMultiHash.values [('3', ⟨2, 0⟩), ('2', ⟨1, 0⟩), ('1', ⟨0, 0⟩)] '2' = [front] ∧
          "1 2 3\n".toList.count '2' = 1 ∧
          classifyStep [('3', ⟨2, 0⟩), ('2', ⟨1, 0⟩), ('1', ⟨0, 0⟩)] st '2' ≠ none) :=
  (assertion_never_fails "1 2 3\n".toList
    ⟨1, 3, 0, [('3', ⟨2, 0⟩), ('2', ⟨1, 0⟩), ('1', ⟨0, 0⟩)]⟩ (by decide)).1
    ['1'] (glyphs.drop 2) '2' (by decide)

/-! ## Isolated singletons -/

/-- A glyph with one occurrence, whose neighbours in the alphabet have not one
occurrence each, is the tag of one component, the `Point` at its cell. -/
theorem point_component (mem : Int × Int) {text : List Char} {s : ScanState} {g : Char}
    {pre post : List Char} (hs : scan text = some s) (hg : glyphs = pre ++ g :: post)
    (h1c : text.count g = 1)
    (hpost : ∀ x ∈ post.head?, text.count x ≠ 1)
    (hpre : ∀ x ∈ pre.getLast?, text.count x ≠ 1) :
    ∃ img p, parse mem text = some img ∧ occurrences text g = [p] ∧
      img.components.filter (fun c => decide (c.glyph = g)) =
        [⟨g, ComponentType.Point, [p]⟩] := by
  obtain ⟨comps, hcl, hp⟩ := parse_of_scan mem hs
  have hgm : g ∈ glyphs := by rw [hg]; simp
  have hv := values_of_count_one hs hgm h1c
  have hn : (s.points.values (next g)).length ≠ 1 := next_after_block hs hg hpost
  have hocc : occurrences text g = s.points.values g := by simp [occurrences, hs]
  obtain ⟨st1, h1, _⟩ := loop_before s.points hg
  have hidle : st1.polygon.points = [] :=
    idle_before hg h1 (Or.inr (fun x hx => count_ne_one hs (hpre x hx)))
  obtain ⟨comps2, hcl2, hf⟩ :=
    classify_single hg h1 (step_idle_point hidle hv hn) hidle rfl
  rw [hcl] at hcl2
  cases hcl2
  exact ⟨_, _, hp, by rw [hocc]; exact hv, hf⟩

/-- C16. When the scan does not return early, an isolated singleton `g` (exactly one
occurrence, a successor that has not exactly one occurrence, and either no
predecessor or a predecessor that has not exactly one occurrence) is the tag of
exactly one component: a `Point` whose single point is the cell of `g`. -/
theorem isolated_singleton_point (mem : Int × Int) (text : List Char) (s : ScanState)
    (g : Char) (pre post : List Char)
    (hs : scan text = some s) (hg : glyphs = pre ++ g :: post)
    (h1c : text.count g = 1)
    (hpost : ∀ x ∈ post.head?, text.count x ≠ 1)
    (hpre : ∀ x ∈ pre.getLast?, text.count x ≠ 1) :
    ∃ img c p, parse mem text = some img ∧
      img.components.filter (fun c => decide (c.glyph = g)) = [c] ∧
      c.type = ComponentType.Point ∧ c.glyph = g ∧ c.points = [p] ∧
      occurrences text g = [p] := by
  obtain ⟨img, p, hp, hocc, hf⟩ := point_component mem hs hg h1c hpost hpre
  exact ⟨img, _, p, hp, hf, rfl, rfl, rfl, hocc⟩

set_option maxRecDepth 100000 in
theorem isolated_singleton_point_witness :
    ∃ img c p, parse (0, 0) "1 . 5\n5 . 7\n".toList = some img ∧
      img.components.filter (fun c => decide (c.glyph = '7')) = [c] ∧
      c.type = ComponentType.Point ∧ c.glyph = '7' ∧ c.points = [p] ∧
      occurrences "1 . 5\n5 . 7\n".toList '7' = [p] :=
  isolated_singleton_point (0, 0) "1 . 5\n5 . 7\n".toList
    ⟨2, 3, 0, [('7', ⟨2, 1⟩), ('5', ⟨0, 1⟩), ('5', ⟨2, 0⟩), ('1', ⟨0, 0⟩)]⟩ '7'
    (glyphs.take 6) (glyphs.drop 7) (by decide) (by decide) (by decide) (by decide)
    (by decide)

/-! ## The successor function -/

theorem next_eq_read (c : Char) :
    next c = match nextOffset c with
      | none => '0'
      | some i => glyphsAt i := by
  unfold next nextOffset
  by_cases h : indexOf glyphs c < 0 ∨ indexOf glyphs c ≥ (glyphs.length : Int)
  · simp only [h, if_true]
  · simp only [h, if_false]

set_option maxRecDepth 1000000 in
theorem next_inside : ∀ i : Nat, i < 60 →
    next (glyphs.getD i '0') = glyphs.getD (i + 1) '0' ∧
      nextOffset (glyphs.getD i '0') = some ((i : Int) + 1) := by
  decide

set_option maxRecDepth 100000 in
theorem next_z_read :
    glyphs.length = 61 ∧ indexOf glyphs 'z' = 60 ∧ nextOffset 'z' = some 61 ∧
      ¬ ((61 : Int) < (glyphs.length : Int)) := by
  decide

/-- C14. For the alphabet symbol at index `i < 60` the function `next` reads
`glyphs()` at `i + 1`, inside the table, and returns the symbol at index `i + 1`.
For the last symbol `z`, at index 60, neither test of the guard holds, and `next`
reads `glyphs()` at offset 61, past the 61 entries of the table: what it returns
is the byte that follows the table (the NUL that ends the string literal, which
is not an alphabet symbol), not the `'0'` of the guarded branch. -/
theorem next_reads_past_end :
    (∀ c : Char, next c = match nextOffset c with
      | none => '0'
      | some i => glyphsAt i) ∧
    (∀ i : Nat, i < 60 →
      next (glyphs.getD i '0') = glyphs.getD (i + 1) '0' ∧
        nextOffset (glyphs.getD i '0') = some ((i : Int) + 1)) ∧
    glyphs.length = 61 ∧ indexOf glyphs 'z' = 60 ∧
    nextOffset 'z' = some 61 ∧ ¬ ((61 : Int) < (glyphs.length : Int)) ∧
    next 'z' = Char.ofNat 0 ∧ next 'z' ≠ '0' ∧ Char.ofNat 0 ∉ glyphs := by
  refine ⟨next_eq_read, next_inside, next_z_read.1, next_z_read.2.1, next_z_read.2.2.1,
    next_z_read.2.2.2, next_z, ?_, nul_not_glyph⟩
  rw [next_z]; decide

/-! ## Blank cells and white space -/

theorem cell_blank {a b : Char} (ha : blank a) (hb : blank b) (s : ScanState) :
    cell a s = cell b s := by
  have hia : ¬ indexOf glyphs a ≥ 0 := fun h => ha.2.2 ((indexOf_nonneg_iff _ _).1 h)
  have hib : ¬ indexOf glyphs b ≥ 0 := fun h => hb.2.2 ((indexOf_nonneg_iff _ _).1 h)
  simp [cell, hia, hib]

theorem scanStep_blank {a b : Char} (ha : blank a) (hb : blank b) (last : Bool)
    (s : ScanState) : scanStep a last s = scanStep b last s := by
  rw [scanStep_cell ha.1 ha.2.1, scanStep_cell hb.1 hb.2.1, cell_blank ha hb]

/-- Two texts that differ only by the choice of the bytes of their blank cells are
scanned alike. -/
theorem scanLoop_blank {t1 t2 : List Char}
    (h : List.Forall₂ (fun a b => a = b ∨ (blank a ∧ blank b)) t1 t2) (s : ScanState) :
    scanLoop t1 s = scanLoop t2 s := by
  induction h generalizing s with
  | nil => rfl
  | cons hab hrest ih =>
    rename_i a b l1 l2
    have hlen : l1.isEmpty = l2.isEmpty := by
      have := hrest.length_eq
      cases l1 <;> cases l2 <;> simp_all
    rw [scanLoop_cons, scanLoop_cons, hlen]
    have hstep : scanStep a l2.isEmpty s = scanStep b l2.isEmpty s := by
      rcases hab with e | ⟨ha, hb⟩
      · rw [e]
      · exact scanStep_blank ha hb _ s
    rw [hstep]
    cases scanStep b l2.isEmpty s with
    | none => rfl
    | some s1 => exact ih s1

theorem parse_congr {t1 t2 : List Char} (mem : Int × Int) (h : scan t1 = scan t2) :
    parse mem t1 = parse mem t2 := by
  simp only [parse, h]

/-- C17. For every text, replacing a byte that is neither white space, nor a newline,
nor an alphabet symbol by another such byte leaves the result of `parse`
unchanged; the same holds when any number of such bytes are replaced. -/
theorem parse_blank_replace :
    (∀ (mem : Int × Int) (pre post : List Char) (a b : Char), blank a → blank b →
      parse mem (pre ++ a :: post) = parse mem (pre ++ b :: post)) ∧
    (∀ (mem : Int × Int) (t1 t2 : List Char),
      List.Forall₂ (fun a b => a = b ∨ (blank a ∧ blank b)) t1 t2 →
      parse mem t1 = parse mem t2) := by
  have general : ∀ (mem : Int × Int) (t1 t2 : List Char),
      List.Forall₂ (fun a b => a = b ∨ (blank a ∧ blank b)) t1 t2 →
      parse mem t1 = parse mem t2 :=
    fun mem t1 t2 h => parse_congr mem (scanLoop_blank h _)
  refine ⟨?_, general⟩
  intro mem pre post a b ha hb
  apply general
  apply List.rel_append
  · exact List.forall₂_same.2 (fun x _ => Or.inl rfl)
  · exact List.Forall₂.cons (Or.inr ⟨ha, hb⟩) (List.forall₂_same.2 (fun x _ => Or.inl rfl))

set_option maxRecDepth 100000 in
theorem parse_blank_replace_witness :
    parse (0, 0) ("1 ".toList ++ '.' :: " 1\n".toList) =
      parse (0, 0) ("1 ".toList ++ '#' :: " 1\n".toList) :=
  parse_blank_replace.1 (0, 0) "1 ".toList " 1\n".toList '.' '#'
    ⟨by decide, by decide, by decide⟩ ⟨by decide, by decide, by decide⟩

theorem strip_cons_space {c : Char} (hn : c ≠ '\n') (hs : isSpace c = true)
    (rest : List Char) : strip (c :: rest) = strip rest := by
  simp [strip, hn, hs]

theorem strip_cons_keep {c : Char} (h : c = '\n' ∨ isSpace c = false)
    (rest : List Char) : strip (c :: rest) = c :: strip rest := by
  rcases h with h | h <;> simp [strip, h]

theorem endsRow_tail {c d : Char} {rest : List Char} (h : EndsRow (c :: d :: rest)) :
    EndsRow (d :: rest) := by
  rcases h with h | ⟨x, hx, hk⟩
  · cases h
  · exact Or.inr ⟨x, by simpa [List.getLast?_cons_cons] using hx, hk⟩

theorem strip_ne_nil {text : List Char} (hne : text ≠ []) (h : EndsRow text) :
    strip text ≠ [] := by
  rcases h with h | ⟨x, hx, hk⟩
  · exact absurd h hne
  · have hmem : x ∈ text := List.mem_of_mem_getLast? hx
    have : x ∈ strip text := by
      simp only [strip, List.mem_filter, Bool.or_eq_true, decide_eq_true_eq,
        Bool.not_eq_true']
      exact ⟨hmem, hk⟩
    intro e; rw [e] at this; simp at this

/-- White space other than newlines can be deleted from a text that does not end
with it: the scan is the same. -/
theorem scanLoop_strip (text : List Char) (h : EndsRow text) (s : ScanState) :
    scanLoop (strip text) s = scanLoop text s := by
  induction text generalizing s with
  | nil => rfl
  | cons c rest ih =>
    cases rest with
    | nil =>
      rcases h with h | ⟨x, hx, hk⟩
      · cases h
      · have hxc : x = c := by simpa using hx.symm
        subst hxc
        rw [strip_cons_keep hk]
        rfl
    | cons d t =>
      have ht := endsRow_tail h
      have hne : strip (d :: t) ≠ [] := strip_ne_nil (by simp) ht
      have he : (strip (d :: t)).isEmpty = false := by
        cases hst : strip (d :: t) with
        | nil => exact absurd hst hne
        | cons _ _ => rfl
      by_cases hk : c = '\n' ∨ isSpace c = false
      · rw [strip_cons_keep hk, scanLoop_cons, scanLoop_cons, he]
        simp only [List.isEmpty_cons]
        cases scanStep c false s with
        | none => rfl
        | some s1 => exact ih ht s1
      · have hn : c ≠ '\n' := fun e => hk (Or.inl e)
        have hs : isSpace c = true := by
          cases hsc : isSpace c with
          | true => rfl
          | false => exact absurd (Or.inr hsc) hk
        rw [strip_cons_space hn hs, scanLoop_cons, scanStep_space hn hs]
        exact ih ht s

/-- C18. For every text that is empty or whose last byte is a newline or is not
white space, deleting all the white space other than newlines leaves the result
of `parse` unchanged: white space never occupies a column. -/
theorem parse_strip (mem : Int × Int) (text : List Char) (h : EndsRow text) :
    parse mem (strip text) = parse mem text :=
  parse_congr mem (scanLoop_strip text h _)

theorem parse_strip_witness :
    EndsRow " 1 \t2\n2  1".toList ∧ strip " 1 \t2\n2  1".toList = "12\n21".toList ∧
    parse (0, 0) (strip " 1 \t2\n2  1".toList) = parse (0, 0) " 1 \t2\n2  1".toList :=
  ⟨Or.inr ⟨'1', by decide, by decide⟩, by decide,
    parse_strip (0, 0) " 1 \t2\n2  1".toList (Or.inr ⟨'1', by decide, by decide⟩)⟩

/-! ## The points lie in the grid -/

theorem inGrid_cell {c : Char} {s : ScanState} (h : InGrid s) : InGrid (cell c s) := by
  obtain ⟨hr, hc, hp⟩ := h
  have hold : ∀ kv ∈ s.points, 0 ≤ kv.2.x ∧ 0 ≤ kv.2.y ∧
      ((kv.2.y < s.row ∧ kv.2.x < s.columns) ∨ (kv.2.y = s.row ∧ kv.2.x < s.column + 1)) := by
    intro kv hkv
    obtain ⟨a, b, d⟩ := hp kv hkv
    refine ⟨a, b, ?_⟩
    rcases d with d | d
    · exact Or.inl d
    · exact Or.inr ⟨d.1, by omega⟩
  refine ⟨hr, by simp only [cell]; omega, ?_⟩
  rw [cell_points]
  by_cases hg : c ∈ glyphs
  · simp only [hg, if_true, List.mem_cons]
    intro kv hkv
    rcases hkv with e | hkv
    · subst e
      exact ⟨hc, hr, Or.inr ⟨rfl, by simp [cell]⟩⟩
    · exact hold kv hkv
  · simp only [hg, if_false]
    exact hold

theorem inGrid_rowEnd {s s1 : ScanState} (h : InGrid s) (he : rowEnd s = some s1) :
    InGrid s1 := by
  obtain ⟨hr, hc, hp⟩ := h
  unfold rowEnd at he
  split at he
  · rename_i hz
    cases he
    refine ⟨by simp only; omega, le_refl _, ?_⟩
    intro kv hkv
    obtain ⟨a, b, d⟩ := hp kv hkv
    refine ⟨a, b, Or.inl ?_⟩
    rcases d with d | d
    · omega
    · simp only; omega
  · split at he
    · cases he
    · rename_i hz heq
      cases he
      refine ⟨by simp only; omega, le_refl _, ?_⟩
      intro kv hkv
      obtain ⟨a, b, d⟩ := hp kv hkv
      refine ⟨a, b, Or.inl ?_⟩
      have heq2 : s.column = s.columns := by
        by_contra hne; exact heq hne
      rcases d with d | d
      · simp only; omega
      · simp only; omega

theorem inGrid_step {c : Char} {last : Bool} {s s1 : ScanState} (h : InGrid s)
    (he : scanStep c last s = some s1) : InGrid s1 := by
  by_cases hn : c = '\n'
  · subst hn
    rw [scanStep_newline] at he
    exact inGrid_rowEnd h he
  · by_cases hs : isSpace c = true
    · rw [scanStep_space hn hs] at he
      cases he; exact h
    · have hs2 : isSpace c = false := by simpa using hs
      rw [scanStep_cell hn hs2] at he
      split at he
      · exact inGrid_rowEnd (inGrid_cell h) he
      · cases he; exact inGrid_cell h

theorem inGrid_loop {text : List Char} {s s1 : ScanState} (h : InGrid s)
    (he : scanLoop text s = some s1) : InGrid s1 := by
  induction text generalizing s with
  | nil => cases he; exact h
  | cons c rest ih =>
    rw [scanLoop_cons] at he
    cases h1 : scanStep c rest.isEmpty s with
    | none => rw [h1] at he; cases he
    | some s2 =>
      rw [h1] at he
      exact ih (inGrid_step h h1) he

/-- The scan of a text that ends with a newline or with a cell leaves no row open. -/
theorem scanLoop_final_column {text : List Char} {s s1 : ScanState}
    (hne : text ≠ []) (h : EndsRow text) (h0 : 0 ≤ s.column)
    (he : scanLoop text s = some s1) : s1.column = 0 := by
  induction text generalizing s with
  | nil => exact absurd rfl hne
  | cons c rest ih =>
    rw [scanLoop_cons] at he
    cases rest with
    | nil =>
      rcases h with h | ⟨x, hx, hk⟩
      · cases h
      have hxc : x = c := by simpa using hx.symm
      subst hxc
      cases h1 : scanStep x [].isEmpty s with
      | none => rw [h1] at he; cases he
      | some s2 =>
        rw [h1] at he
        simp only [Option.some_bind, scanLoop, Option.some.injEq] at he
        subst he
        by_cases hn : x = '\n'
        · subst hn
          rw [scanStep_newline] at h1
          exact rowEnd_column h1
        · have hs : isSpace x = false := by
            rcases hk with hk | hk
            · exact absurd hk hn
            · exact hk
          rw [scanStep_cell hn hs] at h1
          have hc : (cell x s).column ≠ 0 := by simp only [cell]; omega
          simp only [List.isEmpty_nil, true_and, hc, ne_eq, not_false_eq_true, if_true] at h1
          exact rowEnd_column h1
    | cons d t =>
      cases h1 : scanStep c (d :: t).isEmpty s with
      | none => rw [h1] at he; cases he
      | some s2 =>
        rw [h1] at he
        exact ih (by simp) (endsRow_tail h) (scanStep_column h1 h0) he

theorem mem_values {pts : QMultiHash} {g : Char} {p : QPoint} :
    p ∈ pts.values g ↔ (g, p) ∈ pts := by
  simp only [QMultiHash.values, List.mem_map, List.mem_filter, decide_eq_true_eq]
  constructor
  · rintro ⟨kv, ⟨hm, hk⟩, hv⟩
    have : kv = (g, p) := by
      cases kv; simp only at hk hv; rw [hk, hv]
    rw [← this]; exact hm
  · intro h
    exact ⟨(g, p), ⟨h, rfl⟩, rfl⟩

/-- A bound that holds coordinate by coordinate for the cells of the hash holds for
the points of the components. -/
theorem step_points (X Y : Int → Prop) {pts : QMultiHash} {st st1 : ClassifyState}
    {g : Char} (hpts : ∀ kv ∈ pts, X kv.2.x ∧ Y kv.2.y)
    (h : classifyStep pts st g = some st1)
    (hc : ∀ c ∈ st.components, ∀ p ∈ c.points, X p.x ∧ Y p.y)
    (hp : ∀ p ∈ st.polygon.points, X p.x ∧ Y p.y) :
    (∀ c ∈ st1.components, ∀ p ∈ c.points, X p.x ∧ Y p.y) ∧
      (∀ p ∈ st1.polygon.points, X p.x ∧ Y p.y) := by
  have hval : ∀ p ∈ pts.values g, X p.x ∧ Y p.y :=
    fun p hm => hpts (g, p) (mem_values.1 hm)
  have happ : ∀ (x : Component), (∀ p ∈ x.points, X p.x ∧ Y p.y) →
      ∀ c ∈ st.components ++ [x], ∀ p ∈ c.points, X p.x ∧ Y p.y := by
    intro x hx c hcm
    rcases List.mem_append.1 hcm with hcm | hcm
    · exact hc c hcm
    · simp only [List.mem_singleton] at hcm
      subst hcm; exact hx
  have hs := step_cases pts st g
  rw [h] at hs
  generalize hst : some st1 = o at hs
  cases hs with
  | fail hq hv => cases hst
  | emit a hq hv hn =>
    cases hst
    refine ⟨happ _ ?_, by simp⟩
    intro p hm
    rcases List.mem_append.1 hm with hm | hm
    · exact hp p hm
    · exact hval p (by rw [hv]; exact hm)
  | keep a hq hv hn =>
    cases hst
    refine ⟨hc, ?_⟩
    intro p hm
    rcases List.mem_append.1 hm with hm | hm
    · exact hp p hm
    · exact hval p (by rw [hv]; exact hm)
  | zero hq hv => cases hst; exact ⟨hc, hp⟩
  | start a hq hv hn =>
    cases hst
    exact ⟨hc, fun p hm => hval p (by rw [hv]; exact hm)⟩
  | point a hq hv hn =>
    cases hst
    exact ⟨happ _ (fun p hm => hval p (by rw [hv]; exact hm)), hp⟩
  | line a b hq hv =>
    cases hst
    exact ⟨happ _ (fun p hm => hval p (by rw [hv]; exact hm)), hp⟩
  | ellipse r hq hv hr =>
    cases hst
    refine ⟨happ _ ?_, hp⟩
    obtain ⟨lo, hi, e, _, ⟨p1, m1, e1⟩, ⟨p2, m2, e2⟩, ⟨p3, m3, e3⟩, ⟨p4, m4, e4⟩⟩ :=
      rectPoints_box hr
    intro p hm
    simp only [e, List.mem_cons, List.mem_singleton, List.not_mem_nil, or_false] at hm
    rcases hm with hm | hm
    · subst hm
      exact ⟨e1 ▸ (hval p1 m1).1, e2 ▸ (hval p2 m2).2⟩
    · subst hm
      exact ⟨e3 ▸ (hval p3 m3).1, e4 ▸ (hval p4 m4).2⟩

theorem loop_points (X Y : Int → Prop) {pts : QMultiHash} {gs : List Char}
    {st st1 : ClassifyState} (hpts : ∀ kv ∈ pts, X kv.2.x ∧ Y kv.2.y)
    (h : classifyLoop pts gs st = some st1)
    (hc : ∀ c ∈ st.components, ∀ p ∈ c.points, X p.x ∧ Y p.y)
    (hp : ∀ p ∈ st.polygon.points, X p.x ∧ Y p.y) :
    (∀ c ∈ st1.components, ∀ p ∈ c.points, X p.x ∧ Y p.y) ∧
      (∀ p ∈ st1.polygon.points, X p.x ∧ Y p.y) := by
  induction gs generalizing st with
  | nil => cases h; exact ⟨hc, hp⟩
  | cons g rest ih =>
    rw [classifyLoop_cons] at h
    cases h1 : classifyStep pts st g with
    | none => rw [h1] at h; cases h
    | some st2 =>
      rw [h1] at h
      obtain ⟨a, b⟩ := step_points X Y hpts h1 hc hp
      exact ih h a b

theorem classify_arity {pts : QMultiHash} {comps : List Component}
    (h : classify pts = some comps) : ∀ c ∈ comps, Arity c := by
  rw [classify_eq] at h
  cases hl : classifyLoop pts glyphs classifyInit with
  | none => rw [hl] at h; cases h
  | some st =>
    rw [hl] at h
    simp only [Option.map_some', Option.some.injEq] at h
    subst h
    exact (loop_arity hl (by simp [classifyInit]) rfl).1

theorem arity_ne_nil {c : Component} (h : Arity c) : c.points ≠ [] := by
  intro e
  unfold Arity at h
  rw [e] at h
  cases ht : c.type <;> rw [ht] at h <;> simp at h

/-- C19. For every text that is empty or whose last byte is a newline or is not
white space, every point `(x, y)` of every component `parse` returns satisfies
`0 <= x < columns` and `0 <= y < rows`; so a component list that is not empty
comes with a valid extent. -/
theorem parse_points_in_grid (mem : Int × Int) (text : List Char) (h : EndsRow text) :
    ∃ img, parse mem text = some img ∧
      (∀ c ∈ img.components, ∀ p ∈ c.points,
        0 ≤ p.x ∧ p.x < img.columns ∧ 0 ≤ p.y ∧ p.y < img.rows) ∧
      (img.components ≠ [] → isValid img = true) := by
  have key : ∀ img : QTextImageData,
      (∀ c ∈ img.components, c.points ≠ []) →
      (∀ c ∈ img.components, ∀ p ∈ c.points,
        (0 ≤ p.x ∧ p.x < img.columns) ∧ (0 ≤ p.y ∧ p.y < img.rows)) →
      (∀ c ∈ img.components, ∀ p ∈ c.points,
        0 ≤ p.x ∧ p.x < img.columns ∧ 0 ≤ p.y ∧ p.y < img.rows) ∧
      (img.components ≠ [] → isValid img = true) := by
    intro img hne hin
    refine ⟨fun c hc p hp => ⟨(hin c hc p hp).1.1, (hin c hc p hp).1.2,
      (hin c hc p hp).2.1, (hin c hc p hp).2.2⟩, ?_⟩
    intro hcomps
    cases hl : img.components with
    | nil => exact absurd hl hcomps
    | cons c t =>
      have hc : c ∈ img.components := by rw [hl]; simp
      cases hpts : c.points with
      | nil => exact absurd hpts (hne c hc)
      | cons p r =>
        have := hin c hc p (by rw [hpts]; simp)
        simp only [isValid, ne_eq, Bool.and_eq_true, decide_eq_true_eq]
        constructor <;> omega
  cases hs : scan text with
  | none =>
    refine ⟨_, parse_of_abort mem hs, ?_⟩
    exact key _ (by simp [QTextImageData.fresh]) (by simp [QTextImageData.fresh])
  | some s =>
    obtain ⟨comps, hcl, hp⟩ := parse_of_scan mem hs
    refine ⟨_, hp, ?_⟩
    have hgrid : InGrid s :=
      inGrid_loop (s := ⟨0, 0, 0, []⟩) ⟨le_refl _, le_refl _, by simp⟩ hs
    have hcol : s.column = 0 := by
      by_cases hne : text = []
      · subst hne; cases hs; rfl
      · exact scanLoop_final_column hne h (le_refl _) hs
    have hpts : ∀ kv ∈ s.points,
        (0 ≤ kv.2.x ∧ kv.2.x < s.columns) ∧ (0 ≤ kv.2.y ∧ kv.2.y < s.row) := by
      intro kv hkv
      obtain ⟨a, b, d⟩ := hgrid.2.2 kv hkv
      rcases d with d | d
      · exact ⟨⟨a, d.2⟩, ⟨b, d.1⟩⟩
      · rw [hcol] at d; omega
    have hloop : classifyLoop s.points glyphs classifyInit ≠ none := by
      intro e; rw [classify_eq, e] at hcl; cases hcl
    cases hl : classifyLoop s.points glyphs classifyInit with
    | none => exact absurd hl hloop
    | some st =>
      have hin := (loop_points (fun x => 0 ≤ x ∧ x < s.columns) (fun y => 0 ≤ y ∧ y < s.row)
        hpts hl (by simp [classifyInit]) (by simp [classifyInit])).1
      have hst : comps = st.components := by
        rw [classify_eq, hl] at hcl
        simpa using hcl.symm
      subst hst
      exact key _ (fun c hc => arity_ne_nil (classify_arity hcl c hc)) hin

theorem parse_points_in_grid_witness :
    EndsRow "1 2\n2 1".toList ∧
    ∃ img, parse (0, 0) "1 2\n2 1".toList = some img ∧
      (∀ c ∈ img.components, ∀ p ∈ c.points,
        0 ≤ p.x ∧ p.x < img.columns ∧ 0 ≤ p.y ∧ p.y < img.rows) ∧
      (img.components ≠ [] → isValid img = true) :=
  ⟨Or.inr ⟨'1', by decide, by decide⟩,
    parse_points_in_grid (0, 0) "1 2\n2 1".toList (Or.inr ⟨'1', by decide, by decide⟩)⟩

/-! ## No polygon is left open -/

theorem vertices_append_point (comps : List Component) (x : Component)
    (hx : x.type = ComponentType.Point ∨ x.type = ComponentType.Polygon) :
    vertices (comps ++ [x]) = vertices comps ++ x.points := by
  simp [vertices, List.filter_append, hx]

theorem vertices_append_other (comps : List Component) (x : Component)
    (hx : ¬ (x.type = ComponentType.Point ∨ x.type = ComponentType.Polygon)) :
    vertices (comps ++ [x]) = vertices comps := by
  simp [vertices, List.filter_append, hx]

theorem singles_one (pts : QMultiHash) (g : Char) :
    singles pts [g] = if (pts.values g).length = 1 then pts.values g else [] := by
  simp [singles]

/-- An iteration moves the occurrence of a glyph with one occurrence, and nothing
else, to the points of the `Point` and `Polygon` components or of the polygon
being accumulated. -/
theorem step_vertices {pts : QMultiHash} {st st1 : ClassifyState} {g : Char}
    (h : classifyStep pts st g = some st1)
    (ht : st.polygon.type = ComponentType.Polygon) :
    vertices st1.components ++ st1.polygon.points =
        vertices st.components ++ st.polygon.points ++ singles pts [g] ∧
      st1.polygon.type = ComponentType.Polygon := by
  have hs := step_cases pts st g
  rw [h] at hs
  generalize hst : some st1 = o at hs
  rw [singles_one]
  cases hs with
  | fail hq hv => cases hst
  | emit a hq hv hn =>
    cases hst
    refine ⟨?_, ht⟩
    dsimp only
    rw [vertices_append_point st.components
      ⟨st.polygon.glyph, st.polygon.type, st.polygon.points ++ [a]⟩ (Or.inr ht)]
    simp [hv]
  | keep a hq hv hn =>
    cases hst
    refine ⟨?_, ht⟩
    simp [hv]
  | zero hq hv => cases hst; exact ⟨by simp [hv], ht⟩
  | start a hq hv hn =>
    cases hst
    refine ⟨?_, rfl⟩
    simp [hv, hq]
  | point a hq hv hn =>
    cases hst
    refine ⟨?_, ht⟩
    dsimp only
    rw [vertices_append_point _ _ (Or.inl rfl)]
    simp [hv, hq]
  | line a b hq hv =>
    cases hst
    refine ⟨?_, ht⟩
    dsimp only
    rw [vertices_append_other _ _ (by simp)]
    simp [hv]
  | ellipse r hq hv hr =>
    cases hst
    refine ⟨?_, ht⟩
    dsimp only
    rw [vertices_append_other _ _ (by simp)]
    have : ¬ (pts.values g).length = 1 := by omega
    simp [this]

theorem loop_vertices {pts : QMultiHash} {gs : List Char} {st st1 : ClassifyState}
    (h : classifyLoop pts gs st = some st1)
    (ht : st.polygon.type = ComponentType.Polygon) :
    vertices st1.components ++ st1.polygon.points =
      vertices st.components ++ st.polygon.points ++ singles pts gs := by
  induction gs generalizing st with
  | nil => cases h; simp [singles]
  | cons g rest ih =>
    rw [classifyLoop_cons] at h
    cases h1 : classifyStep pts st g with
    | none => rw [h1] at h; cases h
    | some st2 =>
      rw [h1] at h
      obtain ⟨e1, t1⟩ := step_vertices h1 ht
      rw [ih h t1, e1]
      simp [singles]

set_option maxRecDepth 100000 in
theorem glyphs_snoc_z : glyphs = glyphs.take 60 ++ ['z'] := by decide

/-- No polygon is being accumulated when the loop ends, provided the byte that
follows the table has not one occurrence in the hash. -/
theorem classify_final_idle {pts : QMultiHash} {st : ClassifyState}
    (hnul : (pts.values (Char.ofNat 0)).length ≠ 1)
    (h : classifyLoop pts glyphs classifyInit = some st) :
    st.polygon.points = [] := by
  rw [glyphs_snoc_z] at h
  by_contra hp
  have := (loop_end h).1 hp
  rw [next_z] at this
  exact hnul this.2

theorem scan_points_nodup {text : List Char} {s : ScanState} (hs : scan text = some s) :
    (s.points.map (fun kv => kv.2)).Nodup := by
  have ho : Ordered s := ordered_loop ⟨List.Pairwise.nil, by simp⟩ hs
  rw [List.Nodup, List.pairwise_map]
  refine List.Pairwise.imp ?_ ho.1
  intro a b hab e
  rw [e] at hab
  rcases hab with h | ⟨_, h⟩ <;> omega

/-- The occurrences of the glyphs with one occurrence are pairwise distinct cells. -/
theorem singles_nodup {text : List Char} {s : ScanState} (hs : scan text = some s) :
    (singles s.points glyphs).Nodup := by
  have hnd := scan_points_nodup hs
  have hval : ∀ g, (s.points.values g).Nodup := by
    intro g
    exact List.Nodup.sublist ((List.filter_sublist _).map _) hnd
  rw [singles, List.nodup_flatMap]
  constructor
  · intro g _
    split
    · exact hval g
    · exact List.nodup_nil
  · refine List.Pairwise.imp ?_ glyphs_nodup
    intro a b hab p hpa hpb
    have ha : p ∈ s.points.values a := by
      dsimp only at hpa
      split at hpa
      · exact hpa
      · simp at hpa
    have hb : p ∈ s.points.values b := by
      dsimp only at hpb
      split at hpb
      · exact hpb
      · simp at hpb
    have e := List.inj_on_of_nodup_map hnd (mem_values.1 ha) (mem_values.1 hb) rfl
    exact hab (congrArg Prod.fst e)

/-- In a list of components whose `Point` and `Polygon` points are pairwise
distinct, a point belongs to at most one `Point` or `Polygon`. -/
theorem vertices_unique {comps : List Component} (hnd : (vertices comps).Nodup)
    {p : QPoint} {c1 c2 : Component}
    (h1 : c1 ∈ comps) (t1 : c1.type = ComponentType.Point ∨ c1.type = ComponentType.Polygon)
    (p1 : p ∈ c1.points)
    (h2 : c2 ∈ comps) (t2 : c2.type = ComponentType.Point ∨ c2.type = ComponentType.Polygon)
    (p2 : p ∈ c2.points) : c1 = c2 := by
  by_contra hne
  rw [vertices, List.nodup_flatMap] at hnd
  have hsym : Symmetric (fun a b : Component => List.Disjoint a.points b.points) :=
    fun a b hab => hab.symm
  have m1 : c1 ∈ comps.filter (fun c => decide (c.type = ComponentType.Point ∨
      c.type = ComponentType.Polygon)) := by
    simp only [List.mem_filter, decide_eq_true_eq]; exact ⟨h1, t1⟩
  have m2 : c2 ∈ comps.filter (fun c => decide (c.type = ComponentType.Point ∨
      c.type = ComponentType.Polygon)) := by
    simp only [List.mem_filter, decide_eq_true_eq]; exact ⟨h2, t2⟩
  exact List.Pairwise.forall hsym hnd.2 m1 m2 hne p1 p2

set_option maxRecDepth 100000 in
theorem parse_y_z (mem : Int × Int) :
    parse mem "y z\n".toList =
      some ⟨1, 2, [⟨'y', ComponentType.Polygon, [⟨0, 0⟩, ⟨1, 0⟩]⟩]⟩ :=
  parse_eval (s := ⟨1, 2, 0, [('z', ⟨1, 0⟩), ('y', ⟨0, 0⟩)]⟩) mem (by decide) (by decide)

theorem outline_append_keep (comps : List Component) (x : Component)
    (hx : x.type ≠ ComponentType.Ellipse) :
    outline (comps ++ [x]) = outline comps ++ x.points := by
  simp [outline, List.filter_append, hx]

theorem outline_append_ellipse (comps : List Component) (x : Component)
    (hx : x.type = ComponentType.Ellipse) :
    outline (comps ++ [x]) = outline comps := by
  simp [outline, List.filter_append, hx]

theorem direct_one (pts : QMultiHash) (g : Char) :
    direct pts [g] = if (pts.values g).length ≤ 2 then pts.values g else [] := by
  simp [direct]

/-- An iteration moves the occurrences of a glyph with one or two occurrences, and
nothing else, to the points of the components that are not an `Ellipse` or of
the polygon being accumulated. -/
theorem step_outline {pts : QMultiHash} {st st1 : ClassifyState} {g : Char}
    (h : classifyStep pts st g = some st1)
    (ht : st.polygon.type = ComponentType.Polygon) :
    outline st1.components ++ st1.polygon.points =
        outline st.components ++ st.polygon.points ++ direct pts [g] ∧
      st1.polygon.type = ComponentType.Polygon := by
  have hs := step_cases pts st g
  rw [h] at hs
  generalize hst : some st1 = o at hs
  rw [direct_one]
  cases hs with
  | fail hq hv => cases hst
  | emit a hq hv hn =>
    cases hst
    refine ⟨?_, ht⟩
    dsimp only
    rw [outline_append_keep st.components
      ⟨st.polygon.glyph, st.polygon.type, st.polygon.points ++ [a]⟩ (by simp [ht])]
    simp [hv]
  | keep a hq hv hn =>
    cases hst
    refine ⟨?_, ht⟩
    simp [hv]
  | zero hq hv => cases hst; exact ⟨by simp [hv], ht⟩
  | start a hq hv hn =>
    cases hst
    refine ⟨?_, rfl⟩
    simp [hv, hq]
  | point a hq hv hn =>
    cases hst
    refine ⟨?_, ht⟩
    dsimp only
    rw [outline_append_keep st.components ⟨g, ComponentType.Point, [a]⟩ (by simp)]
    simp [hv, hq]
  | line a b hq hv =>
    cases hst
    refine ⟨?_, ht⟩
    dsimp only
    rw [outline_append_keep st.components ⟨g, ComponentType.Line, [a, b]⟩ (by simp)]
    simp [hv, hq]
  | ellipse r hq hv hr =>
    cases hst
    refine ⟨?_, ht⟩
    dsimp only
    rw [outline_append_ellipse st.components ⟨g, ComponentType.Ellipse, r⟩ rfl]
    have : ¬ (pts.values g).length ≤ 2 := by omega
    simp [this]

theorem loop_outline {pts : QMultiHash} {gs : List Char} {st st1 : ClassifyState}
    (h : classifyLoop pts gs st = some st1)
    (ht : st.polygon.type = ComponentType.Polygon) :
    outline st1.components ++ st1.polygon.points =
      outline st.components ++ st.polygon.points ++ direct pts gs := by
  induction gs generalizing st with
  | nil => cases h; simp [direct]
  | cons g rest ih =>
    rw [classifyLoop_cons] at h
    cases h1 : classifyStep pts st g with
    | none => rw [h1] at h; cases h
    | some st2 =>
      rw [h1] at h
      obtain ⟨e1, t1⟩ := step_outline h1 ht
      rw [ih h t1, e1]
      simp [direct]

/-- The occurrences of the glyphs with one or two occurrences are pairwise distinct
cells. -/
theorem direct_nodup {text : List Char} {s : ScanState} (hs : scan text = some s) :
    (direct s.points glyphs).Nodup := by
  have hnd := scan_points_nodup hs
  have hval : ∀ g, (s.points.values g).Nodup := by
    intro g
    exact List.Nodup.sublist ((List.filter_sublist _).map _) hnd
  rw [direct, List.nodup_flatMap]
  constructor
  · intro g _
    split
    · exact hval g
    · exact List.nodup_nil
  · refine List.Pairwise.imp ?_ glyphs_nodup
    intro a b hab p hpa hpb
    have ha : p ∈ s.points.values a := by
      dsimp only at hpa
      split at hpa
      · exact hpa
      · simp at hpa
    have hb : p ∈ s.points.values b := by
      dsimp only at hpb
      split at hpb
      · exact hpb
      · simp at hpb
    have e := List.inj_on_of_nodup_map hnd (mem_values.1 ha) (mem_values.1 hb) rfl
    exact hab (congrArg Prod.fst e)

/-- In a list of components whose points, those of the `Ellipse`s apart, are
pairwise distinct, a point belongs to at most one component that is not an
`Ellipse`. -/
theorem outline_unique {comps : List Component} (hnd : (outline comps).Nodup)
    {p : QPoint} {c1 c2 : Component}
    (h1 : c1 ∈ comps) (t1 : c1.type ≠ ComponentType.Ellipse) (p1 : p ∈ c1.points)
    (h2 : c2 ∈ comps) (t2 : c2.type ≠ ComponentType.Ellipse) (p2 : p ∈ c2.points) :
    c1 = c2 := by
  by_contra hne
  rw [outline, List.nodup_flatMap] at hnd
  have hsym : Symmetric (fun a b : Component => List.Disjoint a.points b.points) :=
    fun a b hab => hab.symm
  have m1 : c1 ∈ comps.filter (fun c => decide (c.type ≠ ComponentType.Ellipse)) := by
    simp only [List.mem_filter, decide_eq_true_eq]; exact ⟨h1, t1⟩
  have m2 : c2 ∈ comps.filter (fun c => decide (c.type ≠ ComponentType.Ellipse)) := by
    simp only [List.mem_filter, decide_eq_true_eq]; exact ⟨h2, t2⟩
  exact List.Pairwise.forall hsym hnd.2 m1 m2 hne p1 p2

set_option maxRecDepth 100000 in
theorem parse_ellipse_corner (mem : Int × Int) :
    parse mem "1 1\n1 3\n".toList =
      some ⟨2, 2, [⟨'1', ComponentType.Ellipse, [⟨0, 0⟩, ⟨1, 1⟩]⟩,
        ⟨'3', ComponentType.Point, [⟨1, 1⟩]⟩]⟩ :=
  parse_eval (s := ⟨2, 2, 0, [('3', ⟨1, 1⟩), ('1', ⟨0, 1⟩), ('1', ⟨1, 0⟩),
    ('1', ⟨0, 0⟩)]⟩) mem (by decide) (by decide)

set_option maxRecDepth 100000 in
theorem ellipse_corner_facts :
    scan "1 1\n1 3\n".toList ≠ none ∧ "1 1\n1 3\n".toList.count '3' = 1 ∧
      occurrences "1 1\n1 3\n".toList '3' = [⟨1, 1⟩] := by
  decide

/-- The text `"1 1\n1 3\n"` is scanned to its end and the glyph `3` occurs once, at
`(1,1)`; that cell is a point of two emitted components, the `Point` tagged `3`
and the `Ellipse` tagged `1`, whose bounding box has its corner there. -/
theorem singleton_cell_counterexample :
    scan "1 1\n1 3\n".toList ≠ none ∧ "1 1\n1 3\n".toList.count '3' = 1 ∧
    occurrences "1 1\n1 3\n".toList '3' = [⟨1, 1⟩] ∧
    parse (0, 0) "1 1\n1 3\n".toList =
      some ⟨2, 2, [⟨'1', ComponentType.Ellipse, [⟨0, 0⟩, ⟨1, 1⟩]⟩,
        ⟨'3', ComponentType.Point, [⟨1, 1⟩]⟩]⟩ ∧
    ¬ ∃ img, parse (0, 0) "1 1\n1 3\n".toList = some img ∧
      ∃! c, c ∈ img.components ∧ (⟨1, 1⟩ : QPoint) ∈ c.points := by
  refine ⟨ellipse_corner_facts.1, ellipse_corner_facts.2.1, ellipse_corner_facts.2.2,
    parse_ellipse_corner (0, 0), ?_⟩
  rintro ⟨img, himg, c, _, huniq⟩
  rw [parse_ellipse_corner] at himg
  cases himg
  have e1 := huniq ⟨'1', ComponentType.Ellipse, [⟨0, 0⟩, ⟨1, 1⟩]⟩ ⟨by simp, by simp⟩
  have e2 := huniq ⟨'3', ComponentType.Point, [⟨1, 1⟩]⟩ ⟨by simp, by simp⟩
  rw [← e2] at e1
  exact absurd e1 (by decide)

/-- C11, amended. When the scan does not return early, no polygon is being
accumulated when the classification loop ends, and the cell of every glyph with
exactly one occurrence is a point of exactly one emitted component other than
an `Ellipse`, which is a `Point` or a `Polygon`: any other component that holds
the cell is an `Ellipse` (a corner of its bounding box falls there).  The text
`"y z\n"`, where the last symbol `z` closes a run, gives one `Polygon` tagged `y`
with the two cells. -/
theorem no_dangling_polygon :
    (∀ (text : List Char) (s : ScanState), scan text = some s →
      ∃ st, classifyLoop s.points glyphs classifyInit = some st ∧
        st.polygon.points = [] ∧ classify s.points = some st.components) ∧
    (∀ (mem : Int × Int) (text : List Char) (s : ScanState) (g : Char),
      scan text = some s → g ∈ glyphs → text.count g = 1 →
      ∃ img p, parse mem text = some img ∧ occurrences text g = [p] ∧
        (∃! c, c ∈ img.components ∧
          (c.type = ComponentType.Point ∨ c.type = ComponentType.Polygon) ∧
          p ∈ c.points) ∧
        (∃! c, c ∈ img.components ∧ c.type ≠ ComponentType.Ellipse ∧ p ∈ c.points)) ∧
    (∀ mem : Int × Int, parse mem "y z\n".toList =
      some ⟨1, 2, [⟨'y', ComponentType.Polygon, [⟨0, 0⟩, ⟨1, 0⟩]⟩]⟩) := by
  have final : ∀ (text : List Char) (s : ScanState), scan text = some s →
      ∃ st, classifyLoop s.points glyphs classifyInit = some st ∧
        st.polygon.points = [] ∧ classify s.points = some st.components := by
    intro text s hs
    obtain ⟨st, hl⟩ := loop_total s.points glyphs_consecutive classifyInit
      (fun hp => absurd rfl hp)
    have hnul : (s.points.values (Char.ofNat 0)).length ≠ 1 := by
      rw [scan_count hs, if_neg nul_not_glyph]; decide
    exact ⟨st, hl, classify_final_idle hnul hl, by rw [classify_eq, hl]; rfl⟩
  refine ⟨final, ?_, parse_y_z⟩
  intro mem text s g hs hgm h1c
  obtain ⟨st, hl, hidle, hcl⟩ := final text s hs
  have hp := parse_eval mem hs hcl
  have hv := values_of_count_one hs hgm h1c
  have hocc : occurrences text g = s.points.values g := by simp [occurrences, hs]
  have hvert : vertices st.components = singles s.points glyphs := by
    have := loop_vertices hl rfl
    simpa [hidle, classifyInit, vertices] using this
  have hout : outline st.components = direct s.points glyphs := by
    have := loop_outline hl rfl
    simpa [hidle, classifyInit, outline] using this
  have hmem : (s.points.values g).headD ⟨0, 0⟩ ∈ vertices st.components := by
    rw [hvert, singles, List.mem_flatMap]
    refine ⟨g, hgm, ?_⟩
    have hlen : (s.points.values g).length = 1 := by rw [hv]; rfl
    rw [if_pos hlen]
    nth_rewrite 1 [hv]
    simp
  have hnd : (vertices st.components).Nodup := by rw [hvert]; exact singles_nodup hs
  have hnd2 : (outline st.components).Nodup := by rw [hout]; exact direct_nodup hs
  refine ⟨_, (s.points.values g).headD ⟨0, 0⟩, hp, by rw [hocc]; exact hv, ?_, ?_⟩
  · have hm2 := hmem
    rw [vertices, List.mem_flatMap] at hm2
    obtain ⟨c, hc, hpc⟩ := hm2
    simp only [List.mem_filter, decide_eq_true_eq] at hc
    refine ⟨c, ⟨hc.1, hc.2, hpc⟩, ?_⟩
    rintro c2 ⟨h2, t2, p2⟩
    exact vertices_unique hnd h2 t2 p2 hc.1 hc.2 hpc
  · have hm2 := hmem
    rw [vertices, List.mem_flatMap] at hm2
    obtain ⟨c, hc, hpc⟩ := hm2
    simp only [List.mem_filter, decide_eq_true_eq] at hc
    have hce : c.type ≠ ComponentType.Ellipse := by
      rcases hc.2 with e | e <;> rw [e] <;> decide
    refine ⟨c, ⟨hc.1, hce, hpc⟩, ?_⟩
    rintro c2 ⟨h2, t2, p2⟩
    exact outline_unique hnd2 h2 t2 p2 hc.1 hce hpc

set_option maxRecDepth 100000 in
theorem no_dangling_polygon_witness :
    ∃ img p, parse (0, 0) "1 1\n1 3\n".toList = some img ∧
      occurrences "1 1\n1 3\n".toList '3' = [p] ∧
      (∃! c, c ∈ img.components ∧
        (c.type = ComponentType.Point ∨ c.type = ComponentType.Polygon) ∧
        p ∈ c.points) ∧
      (∃! c, c ∈ img.components ∧ c.type ≠ ComponentType.Ellipse ∧ p ∈ c.points) :=
  no_dangling_polygon.2.1 (0, 0) "1 1\n1 3\n".toList
    ⟨2, 2, 0, [('3', ⟨1, 1⟩), ('1', ⟨0, 1⟩), ('1', ⟨1, 0⟩), ('1', ⟨0, 0⟩)]⟩ '3'
    (by decide) (by decide) (by decide)

set_option maxRecDepth 100000 in
theorem next_reads_past_end_witness :
    next (glyphs.getD 8 '0') = glyphs.getD (8 + 1) '0' ∧
      nextOffset (glyphs.getD 8 '0') = some (((8 : Nat) : Int) + 1) :=
  next_reads_past_end.2.1 8 (by decide)

end QTextImage
